import Mathlib

/-!
Verification development for the `pulumi-docker-buildkit` example repository.

Part 1 embeds the one concrete function of the example script
(`examples/aws-python/__main__.py`): `get_registry_info`, which derives
registry credentials from an ECR authorization token.  Python strings are
embedded as `List Char`; `str.split(sep)` for a one-character separator is
embedded as `pySplit`; the two external collaborators
(`aws.ecr.get_credentials` and `base64.b64decode(...).decode()`) are
parameters of the embedded function; a Python exception escaping the
function is embedded as `Except.error`.

Part 2 models the deferred-value dependency graph that the specification
documents.  That engine is not part of this repository's sources (the
script only calls into it), so every definition of Part 2 is modelled
from the spec, as the doc comments state.
-/

/-- The observable outcomes of running a fragment of Python code: either a
normal return value, or an uncaught `ValueError` (the exception raised by a
failed tuple unpacking such as `a, b = xs` when `xs` does not have exactly
two elements). -/
inductive PyErr : Type
| valueError
deriving DecidableEq


/-- The fields of the credentials object returned by
`aws.ecr.get_credentials` that `get_registry_info` reads:
`authorization_token` (a base64 text) and `proxy_endpoint`. -/
structure Credentials : Type where
  authorization_token : List Char
  proxy_endpoint : List Char
deriving DecidableEq


/-- Registry arguments (`docker_buildkit.RegistryArgs`) as constructed by
`get_registry_info`:
the keyword fields `server`, `username`, `password`. -/
structure RegistryArgs : Type where
  server : List Char
  username : List Char
  password : List Char
deriving DecidableEq


/-- Python `s.split(sep)` for a single-character separator `sep`:
`''.split(sep) = ['']`, and each occurrence of the separator starts a new
chunk (`'a::b'.split(':') = ['a', '', 'b']`). -/
def pySplit (sep : Char) : List Char → List (List Char)
| [] => [[]]
| c :: rest =>
  if c = sep then [] :: pySplit sep rest
  else
    match pySplit sep rest with
    | [] => [[c]]
    | chunk :: chunks => (c :: chunk) :: chunks


/-- Embedding of `get_registry_info` from `examples/aws-python/__main__.py`.

```python
def get_registry_info(registry_id):
    credentials = aws.ecr.get_credentials(registry_id)
    username, password = base64.b64decode(credentials.authorization_token).decode().split(":")
    return docker_buildkit.RegistryArgs(
        server=credentials.proxy_endpoint,
        username=username,
        password=password,
    )
```

The two external collaborators are passed in: `get_credentials` stands for
`aws.ecr.get_credentials` and `b64decode` for the Python-stdlib composite
`base64.b64decode(...).decode()`.  The tuple unpacking
`username, password = ....split(":")` succeeds exactly when the split
produced two chunks and raises `ValueError` otherwise. -/
def get_registry_info (b64decode : List Char → List Char)
    (get_credentials : Nat → Credentials) (registry_id : Nat) :
    Except PyErr RegistryArgs :=
  match pySplit ':'
      (b64decode (get_credentials registry_id).authorization_token) with
  | [username, password] =>
    Except.ok { server := (get_credentials registry_id).proxy_endpoint,
                username := username, password := password }
  | _ => Except.error PyErr.valueError


/-!
## Part 2: the deferred-value dependency graph

The specification's core component (section 4.1) is not present in this
repository's sources: the example script only calls into the platform that
implements it.  The definitions below are therefore modelled from the
spec's own description of the component, and the claims about the engine
are settled against this model.  The asynchronous scheduling of the spec
is modelled by a deterministic breadth-first propagation worklist; a
"trigger of propagation on a node" is a call of `propagate` with that node
in the initial worklist.
-/

namespace DVGraph

variable {V E : Type}

/-- Modelled from the spec: the resolution state of a `DeferredValue` —
`Pending`, `Resolved` (carrying the value), or `Failed` (carrying the
error). -/
inductive NodeState (V E : Type) : Type
| pending : NodeState V E
| resolved (v : V) : NodeState V E
| failed (e : E) : NodeState V E
deriving DecidableEq


/-- Modelled from the spec: a dependency edge — a directed relation from a
producer node `src` to the consumer callback `transform` and the output
node `out` it populates.  `fired` is the per-edge dispatch flag that makes
dispatch idempotent ("tracked per-edge"). -/
structure Edge (V E : Type) : Type where
  src : Nat
  out : Nat
  transform : V → Except E V
  fired : Bool


/-- Modelled from the spec: the resolution context — the registry of all
live `DeferredValue`s of a run.  Nodes are identified by their index into
`states`; `edges` is the ordered list of registered dependency edges
(`apply` appends, so insertion order is index order); `log` records, in
dispatch order, the indices of the edges whose transform has been invoked. -/
structure Ctx (V E : Type) : Type where
  states : List (NodeState V E)
  edges : List (Edge V E)
  log : List Nat


/-- The empty resolution context, as created at program start. -/
def Ctx.empty (V E : Type) : Ctx V E := { states := [], edges := [], log := [] }


/-- The state of node `n`; indices never handed out by the context read as
`Pending`. -/
def stateOf (ctx : Ctx V E) (n : Nat) : NodeState V E :=
  ctx.states.getD n NodeState.pending


/-- Modelled from the spec: a state is terminal iff it is `Resolved` or
`Failed`. -/
def terminal : NodeState V E → Bool
| NodeState.pending => false
| NodeState.resolved _ => true
| NodeState.failed _ => true


/-- Write state `s` into slot `n` only when that slot is still `Pending`:
a node can never move out of a terminal state. -/
def setIfPending (states : List (NodeState V E)) (n : Nat) (s : NodeState V E) :
    List (NodeState V E) :=
  match states.getD n NodeState.pending with
  | NodeState.pending => states.set n s
  | _ => states


/-- Modelled from the spec: the downstream node state a transform produces —
`Resolved` on a normal result, `Failed` on an error result. -/
def applyTransform (f : V → Except E V) (v : V) : NodeState V E :=
  match f v with
  | Except.ok w => NodeState.resolved w
  | Except.error e => NodeState.failed e


/-- The index of the first edge with source `n` whose transform has not yet
been dispatched. -/
def findUnfired : List (Edge V E) → Nat → Option Nat
| [], _ => none
| e :: rest, n =>
  if e.src = n ∧ e.fired = false then some 0
  else (findUnfired rest n).map (· + 1)


/-- The output node of edge `i` (`0` when the index is out of range, which
propagation never produces). -/
def outAt (ctx : Ctx V E) (i : Nat) : Nat :=
  match ctx.edges[i]? with
  | some e => e.out
  | none => 0


/-- Modelled from the spec: dispatch edge `i` once.  The edge is marked
`fired`; with a `Resolved` source the transform runs (recorded in `log`)
and its result populates the output node; with a `Failed` source the
output node is short-circuited to `Failed` with the same error and the
transform is not invoked.  The output slot is only written while it is
still `Pending`. -/
def fireEdge (ctx : Ctx V E) (i : Nat) : Ctx V E :=
  match ctx.edges[i]? with
  | none => ctx
  | some e =>
    match stateOf ctx e.src with
    | NodeState.pending =>
      { ctx with edges := ctx.edges.set i { e with fired := true } }
    | NodeState.resolved v =>
      { states := setIfPending ctx.states e.out (applyTransform e.transform v),
        edges := ctx.edges.set i { e with fired := true },
        log := ctx.log ++ [i] }
    | NodeState.failed err =>
      { states := setIfPending ctx.states e.out (NodeState.failed err),
        edges := ctx.edges.set i { e with fired := true },
        log := ctx.log }


/-- Modelled from the spec: breadth-first propagation along dependency
edges.  The worklist holds nodes to examine; a node that is terminal has
its not-yet-dispatched outgoing edges fired one by one in insertion order,
each fired edge enqueueing its output node.  `fuel` is a structural bound
on the number of steps; `propagate` supplies a sufficient amount. -/
def propagateGo : Nat → Ctx V E → List Nat → Ctx V E
| _, ctx, [] => ctx
| 0, ctx, _ :: _ => ctx
| fuel + 1, ctx, n :: rest =>
  if terminal (stateOf ctx n) = true then
    match findUnfired ctx.edges n with
    | none => propagateGo fuel ctx rest
    | some i => propagateGo fuel (fireEdge ctx i) (n :: rest ++ [outAt ctx i])
  else propagateGo fuel ctx rest


/-- Modelled from the spec: trigger propagation with an initial worklist.
Every propagation step either retires a worklist entry or fires one more
edge (each edge fires at most once), so `2 * edges + worklist` steps always
reach quiescence. -/
def propagate (ctx : Ctx V E) (queue : List Nat) : Ctx V E :=
  propagateGo (2 * ctx.edges.length + queue.length) ctx queue


/-- Modelled from the spec: `AlreadyResolvedError`, raised when a terminal
node is resolved or failed again. -/
inductive AlreadyResolvedError : Type
| alreadyResolved
deriving DecidableEq


/-- Modelled from the spec: `create_pending()` allocates a fresh node in
`Pending` state and registers it in the context; no other side effect. -/
def create_pending (ctx : Ctx V E) : Ctx V E × Nat :=
  ({ ctx with states := ctx.states ++ [NodeState.pending] }, ctx.states.length)


/-- Modelled from the spec: `resolve(node, value)` moves a `Pending` node
to `Resolved`, stores the value and propagates, scheduling every dependent
transformation exactly once; on a non-`Pending` node it fails with
`AlreadyResolvedError` and changes nothing. -/
def resolve (ctx : Ctx V E) (n : Nat) (v : V) :
    Except AlreadyResolvedError (Ctx V E) :=
  match stateOf ctx n with
  | NodeState.pending =>
    Except.ok (propagate { ctx with states := ctx.states.set n (NodeState.resolved v) } [n])
  | _ => Except.error AlreadyResolvedError.alreadyResolved


/-- Modelled from the spec: `fail(node, error)` moves a `Pending` node to
`Failed`, stores the error and propagates the failure to every transitive
dependent without invoking their transforms; on a non-`Pending` node it
fails with `AlreadyResolvedError` and changes nothing. -/
def fail (ctx : Ctx V E) (n : Nat) (err : E) :
    Except AlreadyResolvedError (Ctx V E) :=
  match stateOf ctx n with
  | NodeState.pending =>
    Except.ok (propagate { ctx with states := ctx.states.set n (NodeState.failed err) } [n])
  | _ => Except.error AlreadyResolvedError.alreadyResolved


/-- Modelled from the spec: `apply(node, transform)` creates a fresh output
node, registers the dependency edge, and, when `node` is already terminal,
immediately dispatches it (running the transform on a `Resolved` source,
short-circuiting the output to `Failed` on a `Failed` source); otherwise
the output stays `Pending` until `node` reaches a terminal state.  It
returns the output node without blocking (the function is total). -/
def apply (ctx : Ctx V E) (n : Nat) (f : V → Except E V) : Ctx V E × Nat :=
  let out := ctx.states.length
  let registered : Ctx V E :=
    { states := ctx.states ++ [NodeState.pending],
      edges := ctx.edges ++ [{ src := n, out := out, transform := f, fired := false }],
      log := ctx.log }
  (propagate registered [n], out)


/-- The errors of the `Failed` nodes among `ns`, in order. -/
def errorsOf (ctx : Ctx V E) (ns : List Nat) : List E :=
  ns.filterMap fun n =>
    match stateOf ctx n with
    | NodeState.failed e => some e
    | _ => none


/-- The resolved values of the `Resolved` nodes among `ns`, keyed by node. -/
def valuesOf (ctx : Ctx V E) (ns : List Nat) : List (Nat × V) :=
  ns.filterMap fun n =>
    match stateOf ctx n with
    | NodeState.resolved v => some (n, v)
    | _ => none


/-- Modelled from the spec: the outcome of `await_all` once it returns —
either the mapping from node to resolved value, or `AggregateError`
carrying every individual failure. -/
inductive AwaitOutcome (V E : Type) : Type
| ok (m : List (Nat × V)) : AwaitOutcome V E
| aggregateError (errs : List E) : AwaitOutcome V E


/-- Modelled from the spec: `await_all(nodes)` suspends until every node is
terminal — modelled as `none` while some node is still `Pending` — then
fails with `AggregateError` carrying every individual failure if any node
failed, and otherwise returns the resolved values keyed by node identity. -/
def await_all (ctx : Ctx V E) (ns : List Nat) : Option (AwaitOutcome V E) :=
  if ns.all fun n => terminal (stateOf ctx n) then
    some (match errorsOf ctx ns with
      | [] => AwaitOutcome.ok (valuesOf ctx ns)
      | e :: es => AwaitOutcome.aggregateError (e :: es))
  else none


/-- All edges out of `n` have been dispatched. -/
def allFiredFor (edges : List (Edge V E)) (n : Nat) : Prop :=
  ∀ e ∈ edges, e.src = n → e.fired = true


/-- The number of not-yet-dispatched edges. -/
def unfiredCount (edges : List (Edge V E)) : Nat :=
  edges.countP fun e => !e.fired


/-- No undispatched edge has a terminal source: the quiescence property of
contexts between operations. -/
def noPendingWork (ctx : Ctx V E) : Prop :=
  ∀ e ∈ ctx.edges, e.fired = false → terminal (stateOf ctx e.src) = false


/-- Every undispatched edge whose source is already terminal has its source
on the worklist. -/
def almostNPW (ctx : Ctx V E) (q : List Nat) : Prop :=
  ∀ e ∈ ctx.edges, e.fired = false → terminal (stateOf ctx e.src) = true →
    e.src ∈ q


/-- The source node of edge `i`, when the index is in range. -/
def srcAt (edges : List (Edge V E)) (i : Nat) : Option Nat :=
  (edges[i]?).map Edge.src


/-- Every logged edge index refers to a dispatched edge. -/
def logFiredL (log : List Nat) (edges : List (Edge V E)) : Prop :=
  ∀ i ∈ log, ∃ e, edges[i]? = some e ∧ e.fired = true


/-- Dispatched edges are downward closed within each sibling group: an
edge can only have fired if every earlier edge with the same source has. -/
def noSkipL (edges : List (Edge V E)) : Prop :=
  ∀ (i j : Nat) (ei ej : Edge V E), i < j → edges[i]? = some ei →
    edges[j]? = some ej → ei.src = ej.src → ej.fired = true →
    ei.fired = true


/-- The dispatch log lists the edges of each sibling group in index
(= insertion) order. -/
def sibOrderedL (log : List Nat) (edges : List (Edge V E)) : Prop :=
  log.Pairwise fun i j => srcAt edges i = srcAt edges j → i < j


/-- The dispatch-log invariant maintained by the engine: logged edges are
dispatched, no edge is logged twice, dispatch is downward closed per
sibling group, and the log lists each sibling group in insertion order. -/
structure DispatchInv (ctx : Ctx V E) : Prop where
  logFired : logFiredL ctx.log ctx.edges
  nodup : ctx.log.Nodup
  noSkip : noSkipL ctx.edges
  sibOrdered : sibOrderedL ctx.log ctx.edges


/-- Every edge connects nodes that the context has allocated. -/
def edgesBounded (ctx : Ctx V E) : Prop :=
  ∀ e ∈ ctx.edges, e.src < ctx.states.length ∧ e.out < ctx.states.length


/-- Every edge points from an older node to a strictly newer node: `apply`
always allocates the output after its input exists. -/
def incEdges (ctx : Ctx V E) : Prop :=
  ∀ e ∈ ctx.edges, e.src < e.out


/-- Modelled from the spec: one operation of the engine, as observed on the
resolution context — allocating a pending node, a successful `resolve`, a
successful `fail`, or an `apply` on an existing node. -/
inductive Step : Ctx V E → Ctx V E → Prop
| create (ctx : Ctx V E) : Step ctx (create_pending ctx).1
| resolveStep (ctx : Ctx V E) (n : Nat) (v : V) (ctx' : Ctx V E) :
    resolve ctx n v = Except.ok ctx' → Step ctx ctx'
| failStep (ctx : Ctx V E) (n : Nat) (err : E) (ctx' : Ctx V E) :
    fail ctx n err = Except.ok ctx' → Step ctx ctx'
| applyStep (ctx : Ctx V E) (n : Nat) (f : V → Except E V) :
    n < ctx.states.length → Step ctx (DVGraph.apply ctx n f).1


/-- The engine invariant: edges stay inside the context, point forward in
allocation order, the dispatch log is consistent, and the context is
quiescent (no undispatched edge with a terminal source). -/
structure Inv (ctx : Ctx V E) : Prop where
  bounded : edgesBounded ctx
  inc : incEdges ctx
  dispatch : DispatchInv ctx
  npw : noPendingWork ctx


/-- The edge that `apply` registers, before dispatch. -/
def newEdge (n out : Nat) (f : V → Except E V) : Edge V E :=
  { src := n, out := out, transform := f, fired := false }


/-- The context after `apply` registers its output node and edge, before
propagation. -/
def registeredCtx (ctx : Ctx V E) (n : Nat) (f : V → Except E V) : Ctx V E :=
  { states := ctx.states ++ [NodeState.pending],
    edges := ctx.edges ++ [newEdge n ctx.states.length f],
    log := ctx.log }


/-- The dependency relation of the graph: an edge from producer `a` to the
output node `b` it populates. -/
def EdgeRel (ctx : Ctx V E) (a b : Nat) : Prop :=
  ∃ e ∈ ctx.edges, e.src = a ∧ e.out = b


/-- No node transitively depends on itself. -/
def Acyclic (ctx : Ctx V E) : Prop :=
  ∀ n, ¬ Relation.TransGen (EdgeRel ctx) n n


/-- A tiny concrete context: node 0 resolved, node 1 pending, one
undispatched edge from 0 to 1. -/
def c4Ctx : Ctx Nat Nat :=
  { states := [NodeState.resolved 5, NodeState.pending],
    edges := [{ src := 0, out := 1, transform := fun v => Except.ok (v + 1),
                fired := false }],
    log := [] }


/-- A fresh node in an empty context. -/
def c8a : Ctx Nat Nat := (create_pending (Ctx.empty Nat Nat)).1


/-- One dependent registered on node 0. -/
def c8b : Ctx Nat Nat := (DVGraph.apply c8a 0 (fun v => Except.ok (v + 1))).1


/-- A second (sibling) dependent registered on node 0. -/
def c8c : Ctx Nat Nat := (DVGraph.apply c8b 0 (fun v => Except.ok (v * 2))).1


/-- A context holding a single resolved node, quiescent and edge-free. -/
def c5Ctx : Ctx Nat Nat :=
  { states := [NodeState.resolved 5], edges := [], log := [] }


/-- The three stages of a fresh A→B→C chain over the empty context. -/
def c1a : Ctx Nat Nat × Nat := create_pending (Ctx.empty Nat Nat)


/-- B registered on A. -/
def c1b : Ctx Nat Nat × Nat :=
  DVGraph.apply c1a.1 c1a.2 (fun v => Except.ok (v + 1))


/-- C registered on B. -/
def c1c : Ctx Nat Nat × Nat :=
  DVGraph.apply c1b.1 c1b.2 (fun v => Except.ok (v * 2))


end DVGraph

/-- Splitting a separator-free text yields a single chunk. -/
theorem pySplit_of_not_mem (sep : Char) (s : List Char) (h : sep ∉ s) :
    pySplit sep s = [s] := by
  induction s with
  | nil => rfl
  | cons c rest ih =>
    have hc : ¬ c = sep := fun hcs => h (hcs ▸ List.mem_cons_self c rest)
    have hr : sep ∉ rest := fun hm => h (List.mem_cons_of_mem c hm)
    simp [pySplit, hc, ih hr]


/-- Splitting around one separator occurrence: the part before it (itself
separator-free) becomes the first chunk. -/
theorem pySplit_append_sep (sep : Char) (u p : List Char) (hu : sep ∉ u) :
    pySplit sep (u ++ sep :: p) = u :: pySplit sep p := by
  induction u with
  | nil => simp [pySplit]
  | cons c rest ih =>
    have hc : ¬ c = sep := fun hcs => hu (hcs ▸ List.mem_cons_self c rest)
    have hr : sep ∉ rest := fun hm => hu (List.mem_cons_of_mem c hm)
    have hrec := ih hr
    show pySplit sep (c :: (rest ++ sep :: p)) = (c :: rest) :: pySplit sep p
    simp only [pySplit, if_neg hc, hrec]


/-- The number of chunks is the separator count plus one. -/
theorem pySplit_length (sep : Char) (s : List Char) :
    (pySplit sep s).length = s.count sep + 1 := by
  induction s with
  | nil => simp [pySplit]
  | cons c rest ih =>
    by_cases hc : c = sep
    · subst hc
      simp [pySplit, ih, List.count_cons]
    · have hne : (pySplit sep rest).length = rest.count sep + 1 := ih
      cases hsp : pySplit sep rest with
      | nil => rw [hsp] at hne; simp at hne
      | cons chunk chunks =>
        rw [hsp] at hne
        simp only [List.length_cons] at hne
        simp only [pySplit, if_neg hc, hsp, List.length_cons,
          List.count_cons, beq_iff_eq, if_neg hc]
        omega


/-- Claim C9: for every credentials value whose base64-decoded
`authorization_token` is of the form `u ++ ':' :: p` with exactly one colon
(neither `u` nor `p` contains a colon), `get_registry_info` returns a
`RegistryArgs` whose `server` is the credentials' `proxy_endpoint`, whose
`username` is `u` and whose `password` is `p`. -/
theorem get_registry_info_ok (b64decode : List Char → List Char)
    (get_credentials : Nat → Credentials) (registry_id : Nat)
    (u p : List Char)
    (hdec : b64decode (get_credentials registry_id).authorization_token
      = u ++ ':' :: p)
    (hu : ':' ∉ u) (hp : ':' ∉ p) :
    get_registry_info b64decode get_credentials registry_id
      = Except.ok { server := (get_credentials registry_id).proxy_endpoint,
                    username := u, password := p } := by
  unfold get_registry_info
  rw [hdec, pySplit_append_sep ':' u p hu, pySplit_of_not_mem ':' p hp]


/-- Witness for C9 at a concrete input: token decoding to `u:p`. -/
theorem get_registry_info_ok_witness :
    get_registry_info (fun s => s)
      (fun _ => { authorization_token := ['u', ':', 'p'],
                  proxy_endpoint := ['s'] }) 0
      = Except.ok { server := ['s'], username := ['u'], password := ['p'] } :=
  get_registry_info_ok (fun s => s)
    (fun _ => { authorization_token := ['u', ':', 'p'],
                proxy_endpoint := ['s'] }) 0
    ['u'] ['p'] rfl (by decide) (by decide)


/-- Claim C10: for every credentials value whose base64-decoded
`authorization_token` does not contain exactly one colon, the two-element
tuple unpacking in `get_registry_info` fails, so the call raises an uncaught
`ValueError` instead of returning a `RegistryArgs`. -/
theorem get_registry_info_raises (b64decode : List Char → List Char)
    (get_credentials : Nat → Credentials) (registry_id : Nat)
    (hcount : (b64decode
        (get_credentials registry_id).authorization_token).count ':' ≠ 1) :
    get_registry_info b64decode get_credentials registry_id
      = Except.error PyErr.valueError := by
  unfold get_registry_info
  have hlen : (pySplit ':'
      (b64decode (get_credentials registry_id).authorization_token)).length
      ≠ 2 := by
    rw [pySplit_length]
    omega
  rcases hsp : pySplit ':'
      (b64decode (get_credentials registry_id).authorization_token) with
    _ | ⟨a, _ | ⟨b, _ | ⟨c, t3⟩⟩⟩
  · rfl
  · rfl
  · rw [hsp] at hlen
    simp at hlen
  · rfl


/-- Witness for C10 at a concrete input: a token with no colon at all. -/
theorem get_registry_info_raises_witness :
    get_registry_info (fun s => s)
      (fun _ => { authorization_token := ['x'],
                  proxy_endpoint := ['s'] }) 0
      = Except.error PyErr.valueError :=
  get_registry_info_raises (fun s => s)
    (fun _ => { authorization_token := ['x'],
                proxy_endpoint := ['s'] }) 0 (by decide)


namespace DVGraph

variable {V E : Type}

theorem getD_append_lt {α : Type} (l₁ l₂ : List α) (d : α) (n : Nat)
    (h : n < l₁.length) : (l₁ ++ l₂).getD n d = l₁.getD n d := by
  simp [List.getD, List.getElem?_append_left h]

theorem getD_append_add {α : Type} (l₁ l₂ : List α) (d : α) (i : Nat) :
    (l₁ ++ l₂).getD (l₁.length + i) d = l₂.getD i d := by
  simp [List.getD, List.getElem?_append_right (Nat.le_add_right l₁.length i)]

theorem getD_set_self {α : Type} (l : List α) (i : Nat) (a d : α)
    (h : i < l.length) : (l.set i a).getD i d = a := by
  simp [List.getD, List.getElem?_set_self h]

theorem getD_set_ne {α : Type} (l : List α) (i j : Nat) (a d : α)
    (h : i ≠ j) : (l.set i a).getD j d = l.getD j d := by
  simp [List.getD, List.getElem?_set_ne h]

theorem getD_of_le {α : Type} (l : List α) (n : Nat) (d : α)
    (h : l.length ≤ n) : l.getD n d = d := by
  simp [List.getD, List.getElem?_eq_none h]

theorem length_setIfPending (l : List (NodeState V E)) (n : Nat)
    (s : NodeState V E) : (setIfPending l n s).length = l.length := by
  unfold setIfPending
  cases l.getD n NodeState.pending <;> simp

theorem setIfPending_getD_ne (l : List (NodeState V E)) (n m : Nat)
    (s : NodeState V E) (h : m ≠ n) :
    (setIfPending l n s).getD m NodeState.pending
      = l.getD m NodeState.pending := by
  unfold setIfPending
  cases l.getD n NodeState.pending
  · exact getD_set_ne l n m s NodeState.pending (Ne.symm h)
  · rfl
  · rfl

theorem setIfPending_of_not_pending (l : List (NodeState V E)) (n : Nat)
    (s : NodeState V E) (h : l.getD n NodeState.pending ≠ NodeState.pending) :
    setIfPending l n s = l := by
  unfold setIfPending
  cases hl : l.getD n NodeState.pending
  · exact absurd hl h
  · rfl
  · rfl

theorem setIfPending_of_pending (l : List (NodeState V E)) (n : Nat)
    (s : NodeState V E) (h : l.getD n NodeState.pending = NodeState.pending) :
    setIfPending l n s = l.set n s := by
  unfold setIfPending
  rw [h]

theorem terminal_iff_ne_pending (s : NodeState V E) :
    terminal s = true ↔ s ≠ NodeState.pending := by
  cases s <;> simp [terminal]

theorem stateOf_of_le (ctx : Ctx V E) (n : Nat) (h : ctx.states.length ≤ n) :
    stateOf ctx n = NodeState.pending :=
  getD_of_le ctx.states n NodeState.pending h

theorem lt_length_of_terminal (ctx : Ctx V E) (n : Nat)
    (h : terminal (stateOf ctx n) = true) : n < ctx.states.length := by
  by_contra hle
  rw [stateOf_of_le ctx n (Nat.le_of_not_lt hle)] at h
  simp [terminal] at h

theorem findUnfired_eq_none (l : List (Edge V E)) (n : Nat)
    (h : allFiredFor l n) : findUnfired l n = none := by
  induction l with
  | nil => rfl
  | cons e rest ih =>
    have he : ¬ (e.src = n ∧ e.fired = false) := by
      rintro ⟨hs, hf⟩
      rw [h e (List.mem_cons_self e rest) hs] at hf
      simp at hf
    have hrest : allFiredFor rest n :=
      fun e' hm hs => h e' (List.mem_cons_of_mem e hm) hs
    simp [findUnfired, he, ih hrest]

theorem allFiredFor_of_findUnfired_none (l : List (Edge V E)) (n : Nat)
    (h : findUnfired l n = none) : allFiredFor l n := by
  induction l with
  | nil => intro e hm; simp at hm
  | cons e rest ih =>
    intro e' hm hs
    by_cases he : e.src = n ∧ e.fired = false
    · simp [findUnfired, he] at h
    · simp only [findUnfired, if_neg he] at h
      cases hfr : findUnfired rest n with
      | some i0 => rw [hfr] at h; simp at h
      | none =>
        rcases List.mem_cons.mp hm with rfl | hm'
        · rcases Bool.eq_false_or_eq_true e'.fired with hf | hf
          · exact hf
          · exact absurd ⟨hs, hf⟩ he
        · exact ih hfr e' hm' hs

theorem findUnfired_append (l₁ l₂ : List (Edge V E)) (n : Nat)
    (h : allFiredFor l₁ n) :
    findUnfired (l₁ ++ l₂) n = (findUnfired l₂ n).map (· + l₁.length) := by
  induction l₁ with
  | nil => simp
  | cons e rest ih =>
    have he : ¬ (e.src = n ∧ e.fired = false) := by
      rintro ⟨hs, hf⟩
      rw [h e (List.mem_cons_self e rest) hs] at hf
      simp at hf
    have hrest : allFiredFor rest n :=
      fun e' hm hs => h e' (List.mem_cons_of_mem e hm) hs
    simp only [List.cons_append, findUnfired, if_neg he, List.append_eq,
      ih hrest]
    cases hfr : findUnfired l₂ n with
    | none => rfl
    | some k =>
      refine congrArg some ?_
      show k + rest.length + 1 = k + (e :: rest).length
      simp only [List.length_cons]
      omega

theorem findUnfired_spec (l : List (Edge V E)) (n : Nat) (i : Nat)
    (h : findUnfired l n = some i) :
    ∃ e, l[i]? = some e ∧ e.src = n ∧ e.fired = false ∧
      ∀ j ej, j < i → l[j]? = some ej → ej.src = n → ej.fired = true := by
  induction l generalizing i with
  | nil => simp [findUnfired] at h
  | cons e rest ih =>
    by_cases he : e.src = n ∧ e.fired = false
    · simp only [findUnfired, if_pos he] at h
      cases h
      exact ⟨e, by simp, he.1, he.2,
        fun j ej hj => absurd hj (Nat.not_lt_zero j)⟩
    · simp only [findUnfired, if_neg he] at h
      rcases Option.map_eq_some.mp h with ⟨i0, hi0, rfl⟩
      rcases ih i0 hi0 with ⟨e0, hget, hs, hf, hfirst⟩
      refine ⟨e0, by simpa using hget, hs, hf, ?_⟩
      intro j ej hj hje hjs
      cases j with
      | zero =>
        have hej : ej = e := by
          simp at hje
          exact hje.symm
        subst hej
        rcases Bool.eq_false_or_eq_true ej.fired with hb | hb
        · exact hb
        · exact absurd ⟨hjs, hb⟩ he
      | succ j0 =>
        exact hfirst j0 ej (by omega) (by simpa using hje) hjs

theorem fireEdge_of_none (ctx : Ctx V E) (i : Nat)
    (hg : ctx.edges[i]? = none) : fireEdge ctx i = ctx := by
  unfold fireEdge
  rw [hg]

theorem fireEdge_of_pending (ctx : Ctx V E) (i : Nat) (e : Edge V E)
    (hg : ctx.edges[i]? = some e)
    (hs : stateOf ctx e.src = NodeState.pending) :
    fireEdge ctx i
      = { ctx with edges := ctx.edges.set i { e with fired := true } } := by
  unfold fireEdge
  rw [hg]
  show (match stateOf ctx e.src with
    | NodeState.pending =>
      { ctx with edges := ctx.edges.set i { e with fired := true } }
    | NodeState.resolved v =>
      { states := setIfPending ctx.states e.out (applyTransform e.transform v),
        edges := ctx.edges.set i { e with fired := true },
        log := ctx.log ++ [i] }
    | NodeState.failed err =>
      { states := setIfPending ctx.states e.out (NodeState.failed err),
        edges := ctx.edges.set i { e with fired := true },
        log := ctx.log }) = _
  rw [hs]

theorem fireEdge_of_resolved (ctx : Ctx V E) (i : Nat) (e : Edge V E) (v : V)
    (hg : ctx.edges[i]? = some e)
    (hs : stateOf ctx e.src = NodeState.resolved v) :
    fireEdge ctx i
      = { states := setIfPending ctx.states e.out (applyTransform e.transform v),
          edges := ctx.edges.set i { e with fired := true },
          log := ctx.log ++ [i] } := by
  unfold fireEdge
  rw [hg]
  show (match stateOf ctx e.src with
    | NodeState.pending =>
      { ctx with edges := ctx.edges.set i { e with fired := true } }
    | NodeState.resolved v =>
      { states := setIfPending ctx.states e.out (applyTransform e.transform v),
        edges := ctx.edges.set i { e with fired := true },
        log := ctx.log ++ [i] }
    | NodeState.failed err =>
      { states := setIfPending ctx.states e.out (NodeState.failed err),
        edges := ctx.edges.set i { e with fired := true },
        log := ctx.log }) = _
  rw [hs]

theorem fireEdge_of_failed (ctx : Ctx V E) (i : Nat) (e : Edge V E) (err : E)
    (hg : ctx.edges[i]? = some e)
    (hs : stateOf ctx e.src = NodeState.failed err) :
    fireEdge ctx i
      = { states := setIfPending ctx.states e.out (NodeState.failed err),
          edges := ctx.edges.set i { e with fired := true },
          log := ctx.log } := by
  unfold fireEdge
  rw [hg]
  show (match stateOf ctx e.src with
    | NodeState.pending =>
      { ctx with edges := ctx.edges.set i { e with fired := true } }
    | NodeState.resolved v =>
      { states := setIfPending ctx.states e.out (applyTransform e.transform v),
        edges := ctx.edges.set i { e with fired := true },
        log := ctx.log ++ [i] }
    | NodeState.failed err =>
      { states := setIfPending ctx.states e.out (NodeState.failed err),
        edges := ctx.edges.set i { e with fired := true },
        log := ctx.log }) = _
  rw [hs]

theorem fireEdge_states_length (ctx : Ctx V E) (i : Nat) :
    (fireEdge ctx i).states.length = ctx.states.length := by
  cases hg : ctx.edges[i]? with
  | none => rw [fireEdge_of_none ctx i hg]
  | some e =>
    cases hs : stateOf ctx e.src with
    | pending => rw [fireEdge_of_pending ctx i e hg hs]
    | resolved v =>
      rw [fireEdge_of_resolved ctx i e v hg hs]
      exact length_setIfPending ctx.states e.out _
    | failed err =>
      rw [fireEdge_of_failed ctx i e err hg hs]
      exact length_setIfPending ctx.states e.out _

theorem fireEdge_edges_length (ctx : Ctx V E) (i : Nat) :
    (fireEdge ctx i).edges.length = ctx.edges.length := by
  cases hg : ctx.edges[i]? with
  | none => rw [fireEdge_of_none ctx i hg]
  | some e =>
    cases hs : stateOf ctx e.src with
    | pending =>
      rw [fireEdge_of_pending ctx i e hg hs]
      exact List.length_set ctx.edges i _
    | resolved v =>
      rw [fireEdge_of_resolved ctx i e v hg hs]
      exact List.length_set ctx.edges i _
    | failed err =>
      rw [fireEdge_of_failed ctx i e err hg hs]
      exact List.length_set ctx.edges i _

theorem fireEdge_stateOf_ne (ctx : Ctx V E) (i m : Nat)
    (h : m ≠ outAt ctx i) :
    stateOf (fireEdge ctx i) m = stateOf ctx m := by
  cases hg : ctx.edges[i]? with
  | none => rw [fireEdge_of_none ctx i hg]
  | some e =>
    have hm : m ≠ e.out := by
      rw [outAt, hg] at h
      exact h
    cases hs : stateOf ctx e.src with
    | pending =>
      rw [fireEdge_of_pending ctx i e hg hs]
      rfl
    | resolved v =>
      rw [fireEdge_of_resolved ctx i e v hg hs]
      exact setIfPending_getD_ne ctx.states e.out m _ hm
    | failed err =>
      rw [fireEdge_of_failed ctx i e err hg hs]
      exact setIfPending_getD_ne ctx.states e.out m _ hm

theorem fireEdge_stateOf_stable (ctx : Ctx V E) (i m : Nat)
    (h : stateOf ctx m ≠ NodeState.pending) :
    stateOf (fireEdge ctx i) m = stateOf ctx m := by
  by_cases hm : m = outAt ctx i
  · cases hg : ctx.edges[i]? with
    | none => rw [fireEdge_of_none ctx i hg]
    | some e =>
      have hme : m = e.out := by
        rw [outAt, hg] at hm
        exact hm
      subst hme
      cases hs : stateOf ctx e.src with
      | pending =>
        rw [fireEdge_of_pending ctx i e hg hs]
        rfl
      | resolved v =>
        rw [fireEdge_of_resolved ctx i e v hg hs]
        show stateOf
          { states := setIfPending ctx.states e.out (applyTransform e.transform v),
            edges := ctx.edges.set i { e with fired := true },
            log := ctx.log ++ [i] } e.out = stateOf ctx e.out
        unfold stateOf
        rw [setIfPending_of_not_pending ctx.states e.out _ h]
      | failed err =>
        rw [fireEdge_of_failed ctx i e err hg hs]
        show stateOf
          { states := setIfPending ctx.states e.out (NodeState.failed err),
            edges := ctx.edges.set i { e with fired := true },
            log := ctx.log } e.out = stateOf ctx e.out
        unfold stateOf
        rw [setIfPending_of_not_pending ctx.states e.out _ h]
  · exact fireEdge_stateOf_ne ctx i m hm

theorem fireEdge_mem_edges (ctx : Ctx V E) (i : Nat) (e' : Edge V E)
    (h : e' ∈ (fireEdge ctx i).edges) :
    e' ∈ ctx.edges ∨ ∃ e ∈ ctx.edges, e' = { e with fired := true } := by
  cases hg : ctx.edges[i]? with
  | none =>
    rw [fireEdge_of_none ctx i hg] at h
    exact Or.inl h
  | some e =>
    have he : e ∈ ctx.edges := by
      rcases List.getElem?_eq_some.mp hg with ⟨hlt, hval⟩
      exact hval ▸ List.getElem_mem hlt
    have hmem : e' ∈ ctx.edges.set i { e with fired := true } := by
      cases hs : stateOf ctx e.src with
      | pending => rw [fireEdge_of_pending ctx i e hg hs] at h; exact h
      | resolved v => rw [fireEdge_of_resolved ctx i e v hg hs] at h; exact h
      | failed err => rw [fireEdge_of_failed ctx i e err hg hs] at h; exact h
    rcases List.mem_or_eq_of_mem_set hmem with hold | rfl
    · exact Or.inl hold
    · exact Or.inr ⟨e, he, rfl⟩

theorem allFiredFor_fireEdge (ctx : Ctx V E) (i n : Nat)
    (h : allFiredFor ctx.edges n) :
    allFiredFor (fireEdge ctx i).edges n := by
  intro e' hm hs
  rcases fireEdge_mem_edges ctx i e' hm with hold | ⟨e, hmem, rfl⟩
  · exact h e' hold hs
  · rfl

theorem propagateGo_nil (fuel : Nat) (ctx : Ctx V E) :
    propagateGo fuel ctx [] = ctx := by
  cases fuel <;> rfl

theorem propagateGo_zero (ctx : Ctx V E) (q : List Nat) :
    propagateGo 0 ctx q = ctx := by
  cases q <;> rfl

theorem propagateGo_states_length (fuel : Nat) (ctx : Ctx V E) (q : List Nat) :
    (propagateGo fuel ctx q).states.length = ctx.states.length := by
  induction fuel generalizing ctx q with
  | zero => rw [propagateGo_zero]
  | succ fuel ih =>
    cases q with
    | nil => rfl
    | cons n rest =>
      by_cases ht : terminal (stateOf ctx n) = true
      · cases hfu : findUnfired ctx.edges n with
        | none =>
          simp only [propagateGo, if_pos ht, hfu]
          exact ih ctx rest
        | some i =>
          simp only [propagateGo, if_pos ht, hfu]
          rw [ih]
          exact fireEdge_states_length ctx i
      · simp only [propagateGo, if_neg ht]
        exact ih ctx rest

theorem propagateGo_edges_length (fuel : Nat) (ctx : Ctx V E) (q : List Nat) :
    (propagateGo fuel ctx q).edges.length = ctx.edges.length := by
  induction fuel generalizing ctx q with
  | zero => rw [propagateGo_zero]
  | succ fuel ih =>
    cases q with
    | nil => rfl
    | cons n rest =>
      by_cases ht : terminal (stateOf ctx n) = true
      · cases hfu : findUnfired ctx.edges n with
        | none =>
          simp only [propagateGo, if_pos ht, hfu]
          exact ih ctx rest
        | some i =>
          simp only [propagateGo, if_pos ht, hfu]
          rw [ih]
          exact fireEdge_edges_length ctx i
      · simp only [propagateGo, if_neg ht]
        exact ih ctx rest

theorem propagateGo_stateOf_stable (fuel : Nat) (ctx : Ctx V E)
    (q : List Nat) (m : Nat) (h : stateOf ctx m ≠ NodeState.pending) :
    stateOf (propagateGo fuel ctx q) m = stateOf ctx m := by
  induction fuel generalizing ctx q with
  | zero => rw [propagateGo_zero]
  | succ fuel ih =>
    cases q with
    | nil => rfl
    | cons n rest =>
      by_cases ht : terminal (stateOf ctx n) = true
      · cases hfu : findUnfired ctx.edges n with
        | none =>
          simp only [propagateGo, if_pos ht, hfu]
          exact ih ctx rest h
        | some i =>
          simp only [propagateGo, if_pos ht, hfu]
          have hfe := fireEdge_stateOf_stable ctx i m h
          rw [ih (fireEdge ctx i) _ (by rw [hfe]; exact h), hfe]
      · simp only [propagateGo, if_neg ht]
        exact ih ctx rest h

theorem propagateGo_allFired (fuel : Nat) (ctx : Ctx V E) (q : List Nat)
    (n : Nat) (h : allFiredFor ctx.edges n) :
    allFiredFor (propagateGo fuel ctx q).edges n := by
  induction fuel generalizing ctx q with
  | zero => rw [propagateGo_zero]; exact h
  | succ fuel ih =>
    cases q with
    | nil => exact h
    | cons n0 rest =>
      by_cases ht : terminal (stateOf ctx n0) = true
      · cases hfu : findUnfired ctx.edges n0 with
        | none =>
          simp only [propagateGo, if_pos ht, hfu]
          exact ih ctx rest h
        | some i =>
          simp only [propagateGo, if_pos ht, hfu]
          exact ih (fireEdge ctx i) _ (allFiredFor_fireEdge ctx i n h)
      · simp only [propagateGo, if_neg ht]
        exact ih ctx rest h

theorem unfiredCount_le_length (edges : List (Edge V E)) :
    unfiredCount edges ≤ edges.length :=
  List.countP_le_length _

theorem unfiredCount_set (l : List (Edge V E)) (i : Nat) (e : Edge V E)
    (hg : l[i]? = some e) (hf : e.fired = false) :
    unfiredCount (l.set i { e with fired := true }) + 1 = unfiredCount l := by
  induction l generalizing i with
  | nil => simp at hg
  | cons c rest ih =>
    cases i with
    | zero =>
      simp at hg
      subst hg
      simp [unfiredCount, List.countP_cons, hf]
    | succ i0 =>
      simp only [List.getElem?_cons_succ] at hg
      simp only [List.set_cons_succ, unfiredCount, List.countP_cons]
      have := ih i0 hg
      unfold unfiredCount at this
      omega

theorem fireEdge_edges_eq (ctx : Ctx V E) (i : Nat) (e : Edge V E)
    (hg : ctx.edges[i]? = some e) :
    (fireEdge ctx i).edges = ctx.edges.set i { e with fired := true } := by
  cases hs : stateOf ctx e.src with
  | pending => rw [fireEdge_of_pending ctx i e hg hs]
  | resolved v => rw [fireEdge_of_resolved ctx i e v hg hs]
  | failed err => rw [fireEdge_of_failed ctx i e err hg hs]

theorem unfiredCount_fireEdge (ctx : Ctx V E) (n i : Nat)
    (h : findUnfired ctx.edges n = some i) :
    unfiredCount (fireEdge ctx i).edges + 1 = unfiredCount ctx.edges := by
  rcases findUnfired_spec ctx.edges n i h with ⟨e, hg, _, hf, _⟩
  rw [fireEdge_edges_eq ctx i e hg]
  exact unfiredCount_set ctx.edges i e hg hf

/-- After propagation with enough fuel, a terminal node from the worklist
has no undispatched outgoing edge left. -/
theorem propagateGo_exhausts (fuel : Nat) (ctx : Ctx V E) (q : List Nat)
    (n : Nat) (hfuel : 2 * unfiredCount ctx.edges + q.length ≤ fuel)
    (hq : n ∈ q) (ht : terminal (stateOf ctx n) = true) :
    findUnfired (propagateGo fuel ctx q).edges n = none := by
  induction fuel generalizing ctx q with
  | zero =>
    cases q with
    | nil => simp at hq
    | cons n0 rest => simp at hfuel
  | succ fuel ih =>
    cases q with
    | nil => simp at hq
    | cons n0 rest =>
      by_cases ht0 : terminal (stateOf ctx n0) = true
      · cases hfu : findUnfired ctx.edges n0 with
        | none =>
          simp only [propagateGo, if_pos ht0, hfu]
          rcases List.mem_cons.mp hq with rfl | hmem
          · exact findUnfired_eq_none _ _ (propagateGo_allFired fuel ctx rest n
              (allFiredFor_of_findUnfired_none ctx.edges n hfu))
          · exact ih ctx rest (by simp at hfuel ⊢; omega) hmem ht
        | some i =>
          simp only [propagateGo, if_pos ht0, hfu]
          have hcount := unfiredCount_fireEdge ctx n0 i hfu
          have hne : stateOf ctx n ≠ NodeState.pending :=
            (terminal_iff_ne_pending _).mp ht
          have hstable := fireEdge_stateOf_stable ctx i n hne
          refine ih (fireEdge ctx i) (n0 :: rest ++ [outAt ctx i]) ?_ ?_ ?_
          · simp only [List.length_cons, List.length_append,
              List.length_singleton, List.length_nil] at hfuel ⊢
            omega
          · rcases List.mem_cons.mp hq with rfl | hmem
            · exact List.mem_cons_self _ _
            · exact List.mem_cons_of_mem _ (List.mem_append_left _ hmem)
          · rw [hstable]
            exact ht
      · simp only [propagateGo, if_neg ht0]
        rcases List.mem_cons.mp hq with rfl | hmem
        · exact absurd ht ht0
        · exact ih ctx rest (by simp at hfuel ⊢; omega) hmem ht


theorem noPendingWork_of_almostNPW_nil (ctx : Ctx V E)
    (h : almostNPW ctx []) : noPendingWork ctx := by
  intro e hm hf
  rcases Bool.eq_false_or_eq_true (terminal (stateOf ctx e.src)) with hb | hb
  · exact absurd (h e hm hf hb) (List.not_mem_nil _)
  · exact hb

/-- Propagation with enough fuel restores quiescence. -/
theorem propagateGo_npw (fuel : Nat) (ctx : Ctx V E) (q : List Nat)
    (hfuel : 2 * unfiredCount ctx.edges + q.length ≤ fuel)
    (h : almostNPW ctx q) : noPendingWork (propagateGo fuel ctx q) := by
  induction fuel generalizing ctx q with
  | zero =>
    cases q with
    | nil => exact noPendingWork_of_almostNPW_nil ctx h
    | cons n0 rest => simp at hfuel
  | succ fuel ih =>
    cases q with
    | nil => exact noPendingWork_of_almostNPW_nil ctx h
    | cons n0 rest =>
      by_cases ht0 : terminal (stateOf ctx n0) = true
      · cases hfu : findUnfired ctx.edges n0 with
        | none =>
          simp only [propagateGo, if_pos ht0, hfu]
          refine ih ctx rest (by simp at hfuel ⊢; omega) ?_
          intro e hm hf hterm
          rcases List.mem_cons.mp (h e hm hf hterm) with hsrc | hmem
          · rw [allFiredFor_of_findUnfired_none ctx.edges n0 hfu e hm hsrc]
              at hf
            simp at hf
          · exact hmem
        | some i =>
          simp only [propagateGo, if_pos ht0, hfu]
          have hcount := unfiredCount_fireEdge ctx n0 i hfu
          refine ih (fireEdge ctx i) (n0 :: rest ++ [outAt ctx i]) ?_ ?_
          · simp only [List.length_cons, List.length_append,
              List.length_singleton, List.length_nil] at hfuel ⊢
            omega
          · intro e' hm' hf' hterm'
            have hold : e' ∈ ctx.edges := by
              rcases fireEdge_mem_edges ctx i e' hm' with hmm | ⟨e0, _, rfl⟩
              · exact hmm
              · simp at hf'
            by_cases hout : e'.src = outAt ctx i
            · rw [hout]
              exact List.mem_cons_of_mem _ (List.mem_append_right _
                (List.mem_singleton.mpr rfl))
            · rw [fireEdge_stateOf_ne ctx i e'.src hout] at hterm'
              rcases List.mem_cons.mp (h e' hold hf' hterm') with hsrc | hmem
              · rw [hsrc]
                exact List.mem_cons_self _ _
              · exact List.mem_cons_of_mem _ (List.mem_append_left _ hmem)
      · simp only [propagateGo, if_neg ht0]
        refine ih ctx rest (by simp at hfuel ⊢; omega) ?_
        intro e hm hf hterm
        rcases List.mem_cons.mp (h e hm hf hterm) with hsrc | hmem
        · rw [hsrc] at hterm
          exact absurd hterm ht0
        · exact hmem


theorem propagate_npw (ctx : Ctx V E) (q : List Nat)
    (h : almostNPW ctx q) : noPendingWork (propagate ctx q) := by
  unfold propagate
  refine propagateGo_npw _ ctx q ?_ h
  have := unfiredCount_le_length ctx.edges
  omega

theorem getElem?_append_singleton {α : Type} (l : List α) (x y : α) (k : Nat)
    (h : (l ++ [x])[k]? = some y) :
    l[k]? = some y ∨ (k = l.length ∧ y = x) := by
  by_cases hk : k < l.length
  · left
    rw [List.getElem?_append_left hk] at h
    exact h
  · right
    have hk' : l.length ≤ k := Nat.le_of_not_lt hk
    rw [List.getElem?_append_right hk'] at h
    have hz : k - l.length = 0 := by
      by_contra hnz
      have hge : 1 ≤ k - l.length := by omega
      have : ([x] : List α)[k - l.length]? = none :=
        List.getElem?_eq_none (by simpa using hge)
      rw [this] at h
      cases h
    rw [hz] at h
    simp at h
    exact ⟨by omega, h.symm⟩

theorem srcAt_set (edges : List (Edge V E)) (i : Nat) (e : Edge V E)
    (hg : edges[i]? = some e) (j : Nat) :
    srcAt (edges.set i { e with fired := true }) j = srcAt edges j := by
  have hlen : i < edges.length := (List.getElem?_eq_some.mp hg).1
  by_cases hj : j = i
  · subst hj
    unfold srcAt
    rw [List.getElem?_set_self hlen, hg]
    rfl
  · unfold srcAt
    rw [List.getElem?_set_ne (fun he => hj he.symm)]

theorem logFiredL_set (log : List Nat) (edges : List (Edge V E)) (i : Nat)
    (e : Edge V E) (hg : edges[i]? = some e) (h : logFiredL log edges) :
    logFiredL log (edges.set i { e with fired := true }) := by
  intro j hj
  have hlen : i < edges.length := (List.getElem?_eq_some.mp hg).1
  rcases h j hj with ⟨ej, hgj, hfj⟩
  by_cases hje : j = i
  · subst hje
    exact ⟨{ e with fired := true }, List.getElem?_set_self hlen, rfl⟩
  · exact ⟨ej, by rw [List.getElem?_set_ne (fun he => hje he.symm)]; exact hgj,
      hfj⟩

theorem logFiredL_append (log : List Nat) (edges : List (Edge V E)) (i : Nat)
    (e : Edge V E) (hg : edges[i]? = some e) (h : logFiredL log edges) :
    logFiredL (log ++ [i]) (edges.set i { e with fired := true }) := by
  intro j hj
  have hlen : i < edges.length := (List.getElem?_eq_some.mp hg).1
  rcases List.mem_append.mp hj with hjl | hji
  · exact logFiredL_set log edges i e hg h j hjl
  · have hj : j = i := List.mem_singleton.mp hji
    subst hj
    exact ⟨{ e with fired := true }, List.getElem?_set_self hlen, rfl⟩

theorem noSkipL_set (edges : List (Edge V E)) (n i : Nat) (e : Edge V E)
    (hg : edges[i]? = some e) (hsrc : e.src = n)
    (hfirst : ∀ j ej, j < i → edges[j]? = some ej → ej.src = n →
      ej.fired = true)
    (h : noSkipL edges) :
    noSkipL (edges.set i { e with fired := true }) := by
  have hlen : i < edges.length := (List.getElem?_eq_some.mp hg).1
  intro j k ej ek hjk hgj hgk hsrceq hkf
  by_cases hji : j = i
  · subst hji
    rw [List.getElem?_set_self hlen] at hgj
    cases hgj
    rfl
  · rw [List.getElem?_set_ne (fun he => hji he.symm)] at hgj
    by_cases hki : k = i
    · subst hki
      rw [List.getElem?_set_self hlen] at hgk
      cases hgk
      exact hfirst j ej hjk hgj (by rw [hsrceq]; exact hsrc)
    · rw [List.getElem?_set_ne (fun he => hki he.symm)] at hgk
      exact h j k ej ek hjk hgj hgk hsrceq hkf

theorem sibOrderedL_set (log : List Nat) (edges : List (Edge V E)) (i : Nat)
    (e : Edge V E) (hg : edges[i]? = some e) (h : sibOrderedL log edges) :
    sibOrderedL log (edges.set i { e with fired := true }) := by
  refine h.imp ?_
  intro a b hab hsrceq
  exact hab (by rw [← srcAt_set edges i e hg a, ← srcAt_set edges i e hg b,
    hsrceq])

theorem sibOrderedL_append (log : List Nat) (edges : List (Edge V E))
    (i : Nat) (e : Edge V E) (hg : edges[i]? = some e)
    (hf : e.fired = false)
    (hlf : logFiredL log edges) (hns : noSkipL edges)
    (hso : sibOrderedL log edges) (hnotin : i ∉ log) :
    sibOrderedL (log ++ [i]) (edges.set i { e with fired := true }) := by
  have hlen : i < edges.length := (List.getElem?_eq_some.mp hg).1
  unfold sibOrderedL
  rw [List.pairwise_append]
  refine ⟨sibOrderedL_set log edges i e hg hso, List.pairwise_singleton _ _,
    ?_⟩
  intro j hj b hb
  have hbi : b = i := List.mem_singleton.mp hb
  rw [hbi]
  intro hsrceq
  rcases hlf j hj with ⟨ej, hgj, hfj⟩
  have hji : j ≠ i := fun he => hnotin (he ▸ hj)
  rw [srcAt_set edges i e hg j, srcAt_set edges i e hg i] at hsrceq
  have hsj : srcAt edges j = some ej.src := by
    unfold srcAt
    rw [hgj]
    rfl
  have hsi : srcAt edges i = some e.src := by
    unfold srcAt
    rw [hg]
    rfl
  rw [hsj, hsi] at hsrceq
  have hsrcs : ej.src = e.src := Option.some_injective _ hsrceq
  by_contra hnot
  have hij : i < j := by omega
  have := hns i j e ej hij hg hgj (by rw [hsrcs]) hfj
  rw [this] at hf
  cases hf

theorem nodup_append_singleton (log : List Nat) (i : Nat)
    (hnd : log.Nodup) (hnotin : i ∉ log) : (log ++ [i]).Nodup := by
  rw [List.nodup_append]
  refine ⟨hnd, List.nodup_singleton i, ?_⟩
  intro a ha hb
  have : a = i := List.mem_singleton.mp hb
  exact hnotin (this ▸ ha)

theorem notin_log_of_unfired (ctx : Ctx V E) (i : Nat) (e : Edge V E)
    (hg : ctx.edges[i]? = some e) (hf : e.fired = false)
    (hlf : logFiredL ctx.log ctx.edges) : i ∉ ctx.log := by
  intro hm
  rcases hlf i hm with ⟨e', hg', hf'⟩
  rw [hg] at hg'
  cases hg'
  rw [hf'] at hf
  cases hf

theorem dispatchInv_fireEdge (ctx : Ctx V E) (n i : Nat)
    (hfind : findUnfired ctx.edges n = some i) (h : DispatchInv ctx) :
    DispatchInv (fireEdge ctx i) := by
  rcases findUnfired_spec ctx.edges n i hfind with ⟨e, hg, hsrc, hf, hfirst⟩
  have hnotin : i ∉ ctx.log := notin_log_of_unfired ctx i e hg hf h.logFired
  have hfirstn : ∀ j ej, j < i → ctx.edges[j]? = some ej →
      ej.src = e.src → ej.fired = true := by
    intro j ej hj hgj hs
    exact hfirst j ej hj hgj (by rw [hs, hsrc])
  cases hst : stateOf ctx e.src with
  | pending =>
    rw [fireEdge_of_pending ctx i e hg hst]
    exact ⟨logFiredL_set _ _ _ _ hg h.logFired, h.nodup,
      noSkipL_set _ e.src i e hg rfl hfirstn h.noSkip,
      sibOrderedL_set _ _ _ _ hg h.sibOrdered⟩
  | resolved v =>
    rw [fireEdge_of_resolved ctx i e v hg hst]
    exact ⟨logFiredL_append _ _ _ _ hg h.logFired,
      nodup_append_singleton _ _ h.nodup hnotin,
      noSkipL_set _ e.src i e hg rfl hfirstn h.noSkip,
      sibOrderedL_append _ _ i e hg hf h.logFired h.noSkip h.sibOrdered
        hnotin⟩
  | failed err =>
    rw [fireEdge_of_failed ctx i e err hg hst]
    exact ⟨logFiredL_set _ _ _ _ hg h.logFired, h.nodup,
      noSkipL_set _ e.src i e hg rfl hfirstn h.noSkip,
      sibOrderedL_set _ _ _ _ hg h.sibOrdered⟩

theorem propagateGo_dispatchInv (fuel : Nat) (ctx : Ctx V E) (q : List Nat)
    (h : DispatchInv ctx) : DispatchInv (propagateGo fuel ctx q) := by
  induction fuel generalizing ctx q with
  | zero => rw [propagateGo_zero]; exact h
  | succ fuel ih =>
    cases q with
    | nil => exact h
    | cons n0 rest =>
      by_cases ht : terminal (stateOf ctx n0) = true
      · cases hfu : findUnfired ctx.edges n0 with
        | none =>
          simp only [propagateGo, if_pos ht, hfu]
          exact ih ctx rest h
        | some i =>
          simp only [propagateGo, if_pos ht, hfu]
          exact ih (fireEdge ctx i) _ (dispatchInv_fireEdge ctx n0 i hfu h)
      · simp only [propagateGo, if_neg ht]
        exact ih ctx rest h

theorem srcAt_append_lt (edges : List (Edge V E)) (e0 : Edge V E) (a : Nat)
    (ha : a < edges.length) : srcAt (edges ++ [e0]) a = srcAt edges a := by
  unfold srcAt
  rw [List.getElem?_append_left ha]

theorem logFiredL_edges_append (log : List Nat) (edges : List (Edge V E))
    (e0 : Edge V E) (h : logFiredL log edges) :
    logFiredL log (edges ++ [e0]) := by
  intro j hj
  rcases h j hj with ⟨e, hg, hf⟩
  have hlt : j < edges.length := (List.getElem?_eq_some.mp hg).1
  exact ⟨e, by rw [List.getElem?_append_left hlt]; exact hg, hf⟩

theorem noSkipL_edges_append (edges : List (Edge V E)) (e0 : Edge V E)
    (hf0 : e0.fired = false) (h : noSkipL edges) :
    noSkipL (edges ++ [e0]) := by
  intro i j ei ej hij hgi hgj hs hjf
  rcases getElem?_append_singleton edges e0 ej j hgj with hgj' | ⟨hj, hej⟩
  · rcases getElem?_append_singleton edges e0 ei i hgi with hgi' | ⟨hi, _⟩
    · exact h i j ei ej hij hgi' hgj' hs hjf
    · have hjlt : j < edges.length := (List.getElem?_eq_some.mp hgj').1
      exact absurd hij (by omega)
  · rw [hej, hf0] at hjf
    cases hjf

theorem sibOrderedL_edges_append (log : List Nat) (edges : List (Edge V E))
    (e0 : Edge V E) (hlf : logFiredL log edges) (h : sibOrderedL log edges) :
    sibOrderedL log (edges ++ [e0]) := by
  refine List.Pairwise.imp_of_mem ?_ h
  intro a b ha hb hab hs
  apply hab
  rcases hlf a ha with ⟨ea, hga, _⟩
  rcases hlf b hb with ⟨eb, hgb, _⟩
  have hal : a < edges.length := (List.getElem?_eq_some.mp hga).1
  have hbl : b < edges.length := (List.getElem?_eq_some.mp hgb).1
  rw [srcAt_append_lt edges e0 a hal, srcAt_append_lt edges e0 b hbl] at hs
  exact hs

theorem edgesBounded_fireEdge (ctx : Ctx V E) (i : Nat)
    (h : edgesBounded ctx) : edgesBounded (fireEdge ctx i) := by
  intro e' hm
  rw [fireEdge_states_length ctx i]
  rcases fireEdge_mem_edges ctx i e' hm with hold | ⟨e, hmem, rfl⟩
  · exact h e' hold
  · exact h e hmem

theorem incEdges_fireEdge (ctx : Ctx V E) (i : Nat)
    (h : incEdges ctx) : incEdges (fireEdge ctx i) := by
  intro e' hm
  rcases fireEdge_mem_edges ctx i e' hm with hold | ⟨e, hmem, rfl⟩
  · exact h e' hold
  · exact h e hmem

theorem propagateGo_edgesBounded (fuel : Nat) (ctx : Ctx V E) (q : List Nat)
    (h : edgesBounded ctx) : edgesBounded (propagateGo fuel ctx q) := by
  induction fuel generalizing ctx q with
  | zero => rw [propagateGo_zero]; exact h
  | succ fuel ih =>
    cases q with
    | nil => exact h
    | cons n0 rest =>
      by_cases ht : terminal (stateOf ctx n0) = true
      · cases hfu : findUnfired ctx.edges n0 with
        | none =>
          simp only [propagateGo, if_pos ht, hfu]
          exact ih ctx rest h
        | some i =>
          simp only [propagateGo, if_pos ht, hfu]
          exact ih (fireEdge ctx i) _ (edgesBounded_fireEdge ctx i h)
      · simp only [propagateGo, if_neg ht]
        exact ih ctx rest h

theorem propagateGo_incEdges (fuel : Nat) (ctx : Ctx V E) (q : List Nat)
    (h : incEdges ctx) : incEdges (propagateGo fuel ctx q) := by
  induction fuel generalizing ctx q with
  | zero => rw [propagateGo_zero]; exact h
  | succ fuel ih =>
    cases q with
    | nil => exact h
    | cons n0 rest =>
      by_cases ht : terminal (stateOf ctx n0) = true
      · cases hfu : findUnfired ctx.edges n0 with
        | none =>
          simp only [propagateGo, if_pos ht, hfu]
          exact ih ctx rest h
        | some i =>
          simp only [propagateGo, if_pos ht, hfu]
          exact ih (fireEdge ctx i) _ (incEdges_fireEdge ctx i h)
      · simp only [propagateGo, if_neg ht]
        exact ih ctx rest h

theorem inv_empty : Inv (Ctx.empty V E) := by
  refine ⟨?_, ?_, ⟨?_, ?_, ?_, ?_⟩, ?_⟩
  · intro e hm
    simp [Ctx.empty] at hm
  · intro e hm
    simp [Ctx.empty] at hm
  · intro i hm
    simp [Ctx.empty] at hm
  · exact List.nodup_nil
  · intro i j ei ej hij hgi
    simp [Ctx.empty] at hgi
  · exact List.Pairwise.nil
  · intro e hm
    simp [Ctx.empty] at hm

theorem getD_append_pending (states : List (NodeState V E)) (m : Nat) :
    (states ++ [NodeState.pending]).getD m NodeState.pending
      = states.getD m NodeState.pending := by
  rcases Nat.lt_trichotomy m states.length with hm | hm | hm
  · exact getD_append_lt states [NodeState.pending] NodeState.pending m hm
  · rw [hm]
    have h1 : (states ++ [NodeState.pending]).getD states.length
        NodeState.pending = NodeState.pending := by
      have := getD_append_add states [NodeState.pending] NodeState.pending 0
      simpa using this
    rw [h1, getD_of_le states states.length NodeState.pending (Nat.le_refl _)]
  · rw [getD_of_le _ _ _ (by simp; omega),
      getD_of_le states m NodeState.pending (by omega)]

theorem resolve_eq_ok (ctx : Ctx V E) (n : Nat) (v : V) (ctx' : Ctx V E)
    (h : resolve ctx n v = Except.ok ctx') :
    stateOf ctx n = NodeState.pending ∧
    ctx' = propagate
      { ctx with states := ctx.states.set n (NodeState.resolved v) } [n] := by
  unfold resolve at h
  cases hs : stateOf ctx n with
  | pending =>
    rw [hs] at h
    simp at h
    exact ⟨rfl, h.symm⟩
  | resolved v0 =>
    rw [hs] at h
    simp at h
  | failed err =>
    rw [hs] at h
    simp at h

theorem fail_eq_ok (ctx : Ctx V E) (n : Nat) (err : E) (ctx' : Ctx V E)
    (h : fail ctx n err = Except.ok ctx') :
    stateOf ctx n = NodeState.pending ∧
    ctx' = propagate
      { ctx with states := ctx.states.set n (NodeState.failed err) } [n] := by
  unfold fail at h
  cases hs : stateOf ctx n with
  | pending =>
    rw [hs] at h
    simp at h
    exact ⟨rfl, h.symm⟩
  | resolved v0 =>
    rw [hs] at h
    simp at h
  | failed err0 =>
    rw [hs] at h
    simp at h

theorem inv_create (ctx : Ctx V E) (h : Inv ctx) :
    Inv (create_pending ctx).1 := by
  refine ⟨?_, h.inc, ⟨h.dispatch.logFired, h.dispatch.nodup,
    h.dispatch.noSkip, h.dispatch.sibOrdered⟩, ?_⟩
  · intro e hm
    rcases h.bounded e hm with ⟨h1, h2⟩
    simp only [create_pending, List.length_append, List.length_singleton]
    omega
  · intro e hm hf
    show terminal ((ctx.states ++ [NodeState.pending]).getD e.src
      NodeState.pending) = false
    rw [getD_append_pending]
    exact h.npw e hm hf

theorem propagate_edgesBounded (ctx : Ctx V E) (q : List Nat)
    (h : edgesBounded ctx) : edgesBounded (propagate ctx q) :=
  propagateGo_edgesBounded _ ctx q h

theorem propagate_incEdges (ctx : Ctx V E) (q : List Nat)
    (h : incEdges ctx) : incEdges (propagate ctx q) :=
  propagateGo_incEdges _ ctx q h

theorem propagate_dispatchInv (ctx : Ctx V E) (q : List Nat)
    (h : DispatchInv ctx) : DispatchInv (propagate ctx q) :=
  propagateGo_dispatchInv _ ctx q h

theorem apply_fst (ctx : Ctx V E) (n : Nat) (f : V → Except E V) :
    (DVGraph.apply ctx n f).1 = propagate (registeredCtx ctx n f) [n] := rfl

theorem apply_snd (ctx : Ctx V E) (n : Nat) (f : V → Except E V) :
    (DVGraph.apply ctx n f).2 = ctx.states.length := rfl

theorem inv_resolve (ctx : Ctx V E) (n : Nat) (v : V) (ctx' : Ctx V E)
    (heq : resolve ctx n v = Except.ok ctx') (h : Inv ctx) : Inv ctx' := by
  rcases resolve_eq_ok ctx n v ctx' heq with ⟨hpend, rfl⟩
  refine ⟨propagate_edgesBounded _ _ ?_, propagate_incEdges _ _ h.inc,
    propagate_dispatchInv _ _ ⟨h.dispatch.logFired, h.dispatch.nodup,
      h.dispatch.noSkip, h.dispatch.sibOrdered⟩, propagate_npw _ _ ?_⟩
  · intro e hm
    rcases h.bounded e hm with ⟨h1, h2⟩
    show e.src < (ctx.states.set n (NodeState.resolved v)).length ∧
      e.out < (ctx.states.set n (NodeState.resolved v)).length
    simp only [List.length_set]
    exact ⟨h1, h2⟩
  · intro e hm hf hterm
    by_cases hsrc : e.src = n
    · rw [hsrc]
      exact List.mem_singleton.mpr rfl
    · exfalso
      have hst : stateOf { ctx with
          states := ctx.states.set n (NodeState.resolved v) } e.src
          = stateOf ctx e.src := by
        show (ctx.states.set n (NodeState.resolved v)).getD e.src
          NodeState.pending = ctx.states.getD e.src NodeState.pending
        exact getD_set_ne ctx.states n e.src _ _ (fun he => hsrc he.symm)
      rw [hst] at hterm
      rw [h.npw e hm hf] at hterm
      cases hterm

theorem inv_fail (ctx : Ctx V E) (n : Nat) (err : E) (ctx' : Ctx V E)
    (heq : fail ctx n err = Except.ok ctx') (h : Inv ctx) : Inv ctx' := by
  rcases fail_eq_ok ctx n err ctx' heq with ⟨hpend, rfl⟩
  refine ⟨propagate_edgesBounded _ _ ?_, propagate_incEdges _ _ h.inc,
    propagate_dispatchInv _ _ ⟨h.dispatch.logFired, h.dispatch.nodup,
      h.dispatch.noSkip, h.dispatch.sibOrdered⟩, propagate_npw _ _ ?_⟩
  · intro e hm
    rcases h.bounded e hm with ⟨h1, h2⟩
    show e.src < (ctx.states.set n (NodeState.failed err)).length ∧
      e.out < (ctx.states.set n (NodeState.failed err)).length
    simp only [List.length_set]
    exact ⟨h1, h2⟩
  · intro e hm hf hterm
    by_cases hsrc : e.src = n
    · rw [hsrc]
      exact List.mem_singleton.mpr rfl
    · exfalso
      have hst : stateOf { ctx with
          states := ctx.states.set n (NodeState.failed err) } e.src
          = stateOf ctx e.src := by
        show (ctx.states.set n (NodeState.failed err)).getD e.src
          NodeState.pending = ctx.states.getD e.src NodeState.pending
        exact getD_set_ne ctx.states n e.src _ _ (fun he => hsrc he.symm)
      rw [hst] at hterm
      rw [h.npw e hm hf] at hterm
      cases hterm

theorem inv_apply (ctx : Ctx V E) (n : Nat) (f : V → Except E V)
    (hn : n < ctx.states.length) (h : Inv ctx) :
    Inv (DVGraph.apply ctx n f).1 := by
  rw [apply_fst]
  refine ⟨propagate_edgesBounded _ _ ?_, propagate_incEdges _ _ ?_,
    propagate_dispatchInv _ _ ?_, propagate_npw _ _ ?_⟩
  · intro e hm
    show e.src < (ctx.states ++ [NodeState.pending]).length ∧
      e.out < (ctx.states ++ [NodeState.pending]).length
    simp only [List.length_append, List.length_singleton]
    rcases List.mem_append.mp hm with hold | hnew
    · rcases h.bounded e hold with ⟨h1, h2⟩
      omega
    · have he : e = newEdge n ctx.states.length f :=
        List.mem_singleton.mp hnew
      rw [he]
      simp only [newEdge]
      omega
  · intro e hm
    rcases List.mem_append.mp hm with hold | hnew
    · exact h.inc e hold
    · have he : e = newEdge n ctx.states.length f :=
        List.mem_singleton.mp hnew
      rw [he]
      exact hn
  · exact ⟨logFiredL_edges_append _ _ _ h.dispatch.logFired,
      h.dispatch.nodup,
      noSkipL_edges_append _ _ rfl h.dispatch.noSkip,
      sibOrderedL_edges_append _ _ _ h.dispatch.logFired
        h.dispatch.sibOrdered⟩
  · intro e hm hf hterm
    rcases List.mem_append.mp hm with hold | hnew
    · exfalso
      have hst : stateOf (registeredCtx ctx n f) e.src = stateOf ctx e.src :=
        getD_append_pending ctx.states e.src
      rw [hst] at hterm
      rw [h.npw e hold hf] at hterm
      cases hterm
    · have he : e = newEdge n ctx.states.length f :=
        List.mem_singleton.mp hnew
      rw [he]
      exact List.mem_singleton.mpr rfl

theorem inv_step (ctx ctx' : Ctx V E) (hs : Step ctx ctx') (h : Inv ctx) :
    Inv ctx' :=
  match hs with
  | Step.create _ => inv_create ctx h
  | Step.resolveStep _ n v _ heq => inv_resolve ctx n v ctx' heq h
  | Step.failStep _ n err _ heq => inv_fail ctx n err ctx' heq h
  | Step.applyStep _ n f hn => inv_apply ctx n f hn h

/-- Claim C2: for every node in a terminal state (`Resolved` or `Failed`),
any subsequent `resolve` or `fail` on that node raises
`AlreadyResolvedError`; no successor context is produced, so the node's
state, stored value and stored error are unchanged. -/
theorem terminal_resolve_fail_error (ctx : Ctx V E) (n : Nat)
    (h : terminal (stateOf ctx n) = true) (v : V) (err : E) :
    resolve ctx n v = Except.error AlreadyResolvedError.alreadyResolved ∧
    fail ctx n err = Except.error AlreadyResolvedError.alreadyResolved := by
  have hne : stateOf ctx n ≠ NodeState.pending :=
    (terminal_iff_ne_pending _).mp h
  constructor
  · unfold resolve
    cases hs : stateOf ctx n with
    | pending => exact absurd hs hne
    | resolved v0 => rfl
    | failed e0 => rfl
  · unfold fail
    cases hs : stateOf ctx n with
    | pending => exact absurd hs hne
    | resolved v0 => rfl
    | failed e0 => rfl


/-- Witness for C2 on a context holding one resolved node. -/
theorem terminal_resolve_fail_error_witness :
    resolve ({ states := [NodeState.resolved 5], edges := [], log := [] }
        : Ctx Nat Nat) 0 9
      = Except.error AlreadyResolvedError.alreadyResolved ∧
    fail ({ states := [NodeState.resolved 5], edges := [], log := [] }
        : Ctx Nat Nat) 0 7
      = Except.error AlreadyResolvedError.alreadyResolved :=
  terminal_resolve_fail_error
    ({ states := [NodeState.resolved 5], edges := [], log := [] }
      : Ctx Nat Nat)
    0 (by decide) 9 7


theorem errorsOf_eq_nil (ctx : Ctx V E) (ns : List Nat)
    (h : ∀ n ∈ ns, ∃ v, stateOf ctx n = NodeState.resolved v) :
    errorsOf ctx ns = [] := by
  induction ns with
  | nil => rfl
  | cons n rest ih =>
    rcases h n (List.mem_cons_self n rest) with ⟨v, hv⟩
    have hrest := ih fun m hm => h m (List.mem_cons_of_mem n hm)
    unfold errorsOf at hrest ⊢
    rw [List.filterMap_cons, hv, hrest]

theorem valuesOf_fst (ctx : Ctx V E) (ns : List Nat)
    (h : ∀ n ∈ ns, ∃ v, stateOf ctx n = NodeState.resolved v) :
    (valuesOf ctx ns).map Prod.fst = ns := by
  induction ns with
  | nil => rfl
  | cons n rest ih =>
    rcases h n (List.mem_cons_self n rest) with ⟨v, hv⟩
    have hrest := ih fun m hm => h m (List.mem_cons_of_mem n hm)
    unfold valuesOf at hrest ⊢
    rw [List.filterMap_cons, hv]
    simp only [List.map_cons, hrest]

theorem valuesOf_mem (ctx : Ctx V E) (ns : List Nat) (pr : Nat × V)
    (h : pr ∈ valuesOf ctx ns) : stateOf ctx pr.1 = NodeState.resolved pr.2 := by
  unfold valuesOf at h
  rcases List.mem_filterMap.mp h with ⟨n, _, hf⟩
  cases hs : stateOf ctx n with
  | pending => rw [hs] at hf; cases hf
  | resolved v =>
    rw [hs] at hf
    simp at hf
    rw [← hf]
    exact hs
  | failed e0 => rw [hs] at hf; cases hf

theorem errorsOf_mem_iff (ctx : Ctx V E) (ns : List Nat) (e : E) :
    e ∈ errorsOf ctx ns ↔ ∃ n ∈ ns, stateOf ctx n = NodeState.failed e := by
  unfold errorsOf
  rw [List.mem_filterMap]
  constructor
  · rintro ⟨n, hn, hf⟩
    cases hs : stateOf ctx n with
    | pending => rw [hs] at hf; cases hf
    | resolved v => rw [hs] at hf; cases hf
    | failed e0 =>
      rw [hs] at hf
      simp at hf
      exact ⟨n, hn, by rw [hs, hf]⟩
  · rintro ⟨n, hn, hs⟩
    exact ⟨n, hn, by rw [hs]⟩

/-- Claim C3: `await_all` on nodes that all resolved returns the mapping
with exactly those nodes as keys and their resolved values; on terminal
nodes where at least one failed it raises `AggregateError` carrying exactly
the errors of the failed nodes. -/
theorem await_all_spec (ctx : Ctx V E) (ns : List Nat) :
    ((∀ n ∈ ns, ∃ v, stateOf ctx n = NodeState.resolved v) →
      await_all ctx ns = some (AwaitOutcome.ok (valuesOf ctx ns)) ∧
      (valuesOf ctx ns).map Prod.fst = ns ∧
      ∀ pr ∈ valuesOf ctx ns, stateOf ctx pr.1 = NodeState.resolved pr.2) ∧
    ((∀ n ∈ ns, terminal (stateOf ctx n) = true) →
      (∃ n ∈ ns, ∃ e, stateOf ctx n = NodeState.failed e) →
      await_all ctx ns = some (AwaitOutcome.aggregateError (errorsOf ctx ns))
        ∧ ∀ e, e ∈ errorsOf ctx ns ↔
          ∃ n ∈ ns, stateOf ctx n = NodeState.failed e) := by
  constructor
  · intro h
    have hterm : ns.all (fun n => terminal (stateOf ctx n)) = true := by
      rw [List.all_eq_true]
      intro n hn
      rcases h n hn with ⟨v, hv⟩
      rw [hv]
      rfl
    refine ⟨?_, valuesOf_fst ctx ns h, fun pr hpr => valuesOf_mem ctx ns pr hpr⟩
    unfold await_all
    rw [if_pos hterm, errorsOf_eq_nil ctx ns h]
  · intro hterm hfail
    have hterm' : ns.all (fun n => terminal (stateOf ctx n)) = true := by
      rw [List.all_eq_true]
      exact hterm
    refine ⟨?_, fun e => errorsOf_mem_iff ctx ns e⟩
    unfold await_all
    rw [if_pos hterm']
    rcases hfail with ⟨n, hn, e, he⟩
    have hmem : e ∈ errorsOf ctx ns :=
      (errorsOf_mem_iff ctx ns e).mpr ⟨n, hn, he⟩
    cases herr : errorsOf ctx ns with
    | nil =>
      rw [herr] at hmem
      cases hmem
    | cons e0 es => rfl


/-- Witness for C3: an all-resolved context and a context with a failure. -/
theorem await_all_spec_witness :
    await_all ({ states := [NodeState.resolved 5], edges := [], log := [] }
        : Ctx Nat Nat) [0]
      = some (AwaitOutcome.ok [(0, 5)]) ∧
    await_all ({ states := [NodeState.resolved 5, NodeState.failed 7],
                 edges := [], log := [] } : Ctx Nat Nat) [0, 1]
      = some (AwaitOutcome.aggregateError [7]) := by
  constructor
  · exact ((await_all_spec
      ({ states := [NodeState.resolved 5], edges := [], log := [] }
        : Ctx Nat Nat) [0]).1
      (by
        intro n hn
        have hn0 : n = 0 := List.mem_singleton.mp hn
        rw [hn0]
        exact ⟨5, rfl⟩)).1
  · exact ((await_all_spec
      ({ states := [NodeState.resolved 5, NodeState.failed 7],
         edges := [], log := [] } : Ctx Nat Nat) [0, 1]).2
      (by decide)
      ⟨1, by decide, 7, rfl⟩).1


theorem propagate_stateOf_stable (ctx : Ctx V E) (q : List Nat) (m : Nat)
    (h : stateOf ctx m ≠ NodeState.pending) :
    stateOf (propagate ctx q) m = stateOf ctx m :=
  propagateGo_stateOf_stable _ ctx q m h

theorem create_stateOf (ctx : Ctx V E) (n : Nat) :
    stateOf (create_pending ctx).1 n = stateOf ctx n :=
  getD_append_pending ctx.states n

theorem resolve_stateOf_stable (ctx : Ctx V E) (n0 : Nat) (v : V)
    (ctx' : Ctx V E) (heq : resolve ctx n0 v = Except.ok ctx') (n : Nat)
    (h : stateOf ctx n ≠ NodeState.pending) :
    stateOf ctx' n = stateOf ctx n := by
  rcases resolve_eq_ok ctx n0 v ctx' heq with ⟨hpend, rfl⟩
  have hne : n0 ≠ n := fun he => h (he ▸ hpend)
  have hset : stateOf
      { ctx with states := ctx.states.set n0 (NodeState.resolved v) } n
      = stateOf ctx n := getD_set_ne ctx.states n0 n _ _ hne
  rw [propagate_stateOf_stable _ _ _ (by rw [hset]; exact h), hset]

theorem fail_stateOf_stable (ctx : Ctx V E) (n0 : Nat) (err : E)
    (ctx' : Ctx V E) (heq : fail ctx n0 err = Except.ok ctx') (n : Nat)
    (h : stateOf ctx n ≠ NodeState.pending) :
    stateOf ctx' n = stateOf ctx n := by
  rcases fail_eq_ok ctx n0 err ctx' heq with ⟨hpend, rfl⟩
  have hne : n0 ≠ n := fun he => h (he ▸ hpend)
  have hset : stateOf
      { ctx with states := ctx.states.set n0 (NodeState.failed err) } n
      = stateOf ctx n := getD_set_ne ctx.states n0 n _ _ hne
  rw [propagate_stateOf_stable _ _ _ (by rw [hset]; exact h), hset]

theorem apply_stateOf_stable (ctx : Ctx V E) (n0 : Nat) (f : V → Except E V)
    (n : Nat) (h : stateOf ctx n ≠ NodeState.pending) :
    stateOf (DVGraph.apply ctx n0 f).1 n = stateOf ctx n := by
  rw [apply_fst]
  have hreg : stateOf (registeredCtx ctx n0 f) n = stateOf ctx n :=
    getD_append_pending ctx.states n
  rw [propagate_stateOf_stable _ _ _ (by rw [hreg]; exact h), hreg]

theorem step_stateOf_stable (ctx ctx' : Ctx V E) (hs : Step ctx ctx')
    (n : Nat) (h : stateOf ctx n ≠ NodeState.pending) :
    stateOf ctx' n = stateOf ctx n :=
  match hs with
  | Step.create _ => create_stateOf ctx n
  | Step.resolveStep _ n0 v _ heq =>
    resolve_stateOf_stable ctx n0 v ctx' heq n h
  | Step.failStep _ n0 err _ heq =>
    fail_stateOf_stable ctx n0 err ctx' heq n h
  | Step.applyStep _ n0 f _ => apply_stateOf_stable ctx n0 f n h

/-- Claim C6: once a node is terminal it stays in that exact terminal
state, with the same stored value or error, across every further sequence
of graph operations — no operation moves a node out of a terminal state. -/
theorem terminal_state_permanent (ctx ctx' : Ctx V E)
    (hreach : Relation.ReflTransGen Step ctx ctx') (n : Nat) :
    (∀ v, stateOf ctx n = NodeState.resolved v →
      stateOf ctx' n = NodeState.resolved v) ∧
    (∀ err, stateOf ctx n = NodeState.failed err →
      stateOf ctx' n = NodeState.failed err) := by
  induction hreach with
  | refl => exact ⟨fun v hv => hv, fun e he => he⟩
  | tail hab hstep ih =>
    constructor
    · intro v hv
      have hb := ih.1 v hv
      rw [step_stateOf_stable _ _ hstep n
        (by rw [hb]; exact fun hc => NodeState.noConfusion hc)]
      exact hb
    · intro err he
      have hb := ih.2 err he
      rw [step_stateOf_stable _ _ hstep n
        (by rw [hb]; exact fun hc => NodeState.noConfusion hc)]
      exact hb


/-- Witness for C6: a resolved node survives a `create_pending` step. -/
theorem terminal_state_permanent_witness :
    stateOf (create_pending ({ states := [NodeState.resolved 5],
                               edges := [], log := [] } : Ctx Nat Nat)).1 0
      = NodeState.resolved 5 :=
  (terminal_state_permanent
    ({ states := [NodeState.resolved 5], edges := [], log := [] }
      : Ctx Nat Nat)
    (create_pending ({ states := [NodeState.resolved 5],
                       edges := [], log := [] } : Ctx Nat Nat)).1
    (Relation.ReflTransGen.single (Step.create _)) 0).1 5 rfl


theorem acyclic_of_incEdges (ctx : Ctx V E) (h : incEdges ctx) :
    Acyclic ctx := by
  intro n hcycle
  have hlt : ∀ a b, Relation.TransGen (EdgeRel ctx) a b → a < b := by
    intro a b hab
    induction hab with
    | single hr =>
      rcases hr with ⟨e, hm, hs, ho⟩
      rw [← hs, ← ho]
      exact h e hm
    | tail hab2 hr ih =>
      rcases hr with ⟨e, hm, hs, ho⟩
      have := h e hm
      omega
  exact absurd (hlt n n hcycle) (lt_irrefl n)

theorem resolve_incEdges (ctx : Ctx V E) (n : Nat) (v : V) (ctx' : Ctx V E)
    (heq : resolve ctx n v = Except.ok ctx') (h : incEdges ctx) :
    incEdges ctx' := by
  rcases resolve_eq_ok ctx n v ctx' heq with ⟨hpend, rfl⟩
  exact propagate_incEdges _ _ h

theorem fail_incEdges (ctx : Ctx V E) (n : Nat) (err : E) (ctx' : Ctx V E)
    (heq : fail ctx n err = Except.ok ctx') (h : incEdges ctx) :
    incEdges ctx' := by
  rcases fail_eq_ok ctx n err ctx' heq with ⟨hpend, rfl⟩
  exact propagate_incEdges _ _ h

theorem apply_incEdges (ctx : Ctx V E) (n : Nat) (f : V → Except E V)
    (hn : n < ctx.states.length) (h : incEdges ctx) :
    incEdges (DVGraph.apply ctx n f).1 := by
  rw [apply_fst]
  refine propagate_incEdges _ _ ?_
  intro e hm
  rcases List.mem_append.mp hm with hold | hnew
  · exact h e hold
  · have he : e = newEdge n ctx.states.length f := List.mem_singleton.mp hnew
    rw [he]
    exact hn

theorem step_incEdges (ctx ctx' : Ctx V E) (hs : Step ctx ctx')
    (h : incEdges ctx) : incEdges ctx' :=
  match hs with
  | Step.create _ => fun e hm => h e hm
  | Step.resolveStep _ n v _ heq => resolve_incEdges ctx n v ctx' heq h
  | Step.failStep _ n err _ heq => fail_incEdges ctx n err ctx' heq h
  | Step.applyStep _ n f hn => apply_incEdges ctx n f hn h

/-- Claim C7: in every reachable context the graph of dependency edges is
acyclic — no node transitively depends on itself — and every operation
(`create_pending`, `resolve`, `fail`, `apply`) preserves this, because
every edge points from an older node to a strictly newer one. -/
theorem acyclic_invariant (ctx : Ctx V E) (h : incEdges ctx) :
    Acyclic ctx ∧ ∀ ctx', Step ctx ctx' → incEdges ctx' ∧ Acyclic ctx' :=
  ⟨acyclic_of_incEdges ctx h, fun ctx' hs =>
    have h' := step_incEdges ctx ctx' hs h
    ⟨h', acyclic_of_incEdges ctx' h'⟩⟩


/-- Witness for C7 at the empty context. -/
theorem acyclic_invariant_witness : Acyclic (Ctx.empty Nat Nat) :=
  (acyclic_invariant (Ctx.empty Nat Nat)
    (by intro e hm; simp [Ctx.empty] at hm)).1


theorem propagate_nodup (ctx : Ctx V E) (q : List Nat)
    (hinv : DispatchInv ctx) : (propagate ctx q).log.Nodup :=
  (propagate_dispatchInv ctx q hinv).nodup

theorem propagate_exhausts (ctx : Ctx V E) (n : Nat)
    (ht : terminal (stateOf ctx n) = true) :
    findUnfired (propagate ctx [n]).edges n = none :=
  propagateGo_exhausts (2 * ctx.edges.length + [n].length) ctx [n] n
    (by
      have := unfiredCount_le_length ctx.edges
      simp only [List.length_singleton]
      omega)
    (List.mem_singleton.mpr rfl) ht

/-- Claim C4: triggering propagation on a node any number of times invokes
each dependent edge's transform exactly once — the dispatch log stays
duplicate-free, after one trigger every outgoing edge of the terminal node
is dispatched, and a second trigger of propagation is a no-op. -/
theorem edge_fires_exactly_once (ctx : Ctx V E) (n : Nat)
    (hinv : DispatchInv ctx) (ht : terminal (stateOf ctx n) = true) :
    (propagate ctx [n]).log.Nodup ∧
    (∀ (i : Nat) (e : Edge V E), (propagate ctx [n]).edges[i]? = some e →
      e.src = n → e.fired = true) ∧
    propagate (propagate ctx [n]) [n] = propagate ctx [n] := by
  have hnone : findUnfired (propagate ctx [n]).edges n = none :=
    propagate_exhausts ctx n ht
  have hall := allFiredFor_of_findUnfired_none _ n hnone
  refine ⟨propagate_nodup ctx [n] hinv, ?_, ?_⟩
  · intro i e hg hsrc
    have hmem : e ∈ (propagate ctx [n]).edges := by
      rcases List.getElem?_eq_some.mp hg with ⟨hlt, hval⟩
      exact hval ▸ List.getElem_mem hlt
    exact hall e hmem hsrc
  · have ht' : terminal (stateOf (propagate ctx [n]) n) = true := by
      rw [propagate_stateOf_stable ctx [n] n
        ((terminal_iff_ne_pending _).mp ht)]
      exact ht
    show propagateGo (2 * (propagate ctx [n]).edges.length + 1)
      (propagate ctx [n]) [n] = propagate ctx [n]
    simp only [propagateGo]
    rw [if_pos ht', hnone]


/-- Witness for C4 on a context with one resolved node and one edge. -/
theorem edge_fires_exactly_once_witness :
    (propagate c4Ctx [0]).log.Nodup ∧
    (∀ (i : Nat) (e : Edge Nat Nat),
      (propagate c4Ctx [0]).edges[i]? = some e →
      e.src = 0 → e.fired = true) ∧
    propagate (propagate c4Ctx [0]) [0] = propagate c4Ctx [0] :=
  edge_fires_exactly_once c4Ctx 0
    (by
      refine ⟨?_, List.nodup_nil, ?_, List.Pairwise.nil⟩
      · intro i hm
        simp [c4Ctx] at hm
      · intro i j ei ej hij hgi hgj hs hf
        have hj : j < 1 := by
          have := (List.getElem?_eq_some.mp hgj).1
          simpa [c4Ctx] using this
        exact absurd hij (by omega))
    (by decide)


/-- Claim C8: in every context reached by a successful `resolve` from an
invariant-satisfying context, the dispatch log lists the edges of each
sibling group (edges sharing a source node) in index order, which is
insertion order because `apply` appends edges — sibling dependents are
dispatched in the order `apply` was called.  Across different sources the
log order is unconstrained. -/
theorem sibling_dispatch_order (ctx : Ctx V E) (n : Nat) (v : V)
    (ctx' : Ctx V E) (hinv : Inv ctx)
    (heq : resolve ctx n v = Except.ok ctx') :
    sibOrderedL ctx'.log ctx'.edges :=
  (inv_resolve ctx n v ctx' heq hinv).dispatch.sibOrdered


theorem c8c_inv : Inv c8c :=
  inv_apply c8b 0 (fun v => Except.ok (v * 2)) (by decide)
    (inv_apply c8a 0 (fun v => Except.ok (v + 1)) (by decide)
      (inv_create (Ctx.empty Nat Nat) inv_empty))

/-- Witness for C8: resolving a node with two sibling dependents yields a
dispatch log ordered by insertion. -/
theorem sibling_dispatch_order_witness :
    ∃ ctx' : Ctx Nat Nat, resolve c8c 0 5 = Except.ok ctx' ∧
      sibOrderedL ctx'.log ctx'.edges := by
  refine ⟨propagate
    { c8c with states := c8c.states.set 0 (NodeState.resolved 5) } [0],
    rfl, ?_⟩
  exact sibling_dispatch_order c8c 0 5 _ c8c_inv rfl


theorem propagate_eq_go (ctx : Ctx V E) (q : List Nat) :
    propagate ctx q = propagateGo (2 * ctx.edges.length + q.length) ctx q :=
  rfl

theorem go_step_fire (fuel : Nat) (ctx : Ctx V E) (n : Nat) (rest : List Nat)
    (i : Nat) (ht : terminal (stateOf ctx n) = true)
    (hf : findUnfired ctx.edges n = some i) :
    propagateGo (fuel + 1) ctx (n :: rest)
      = propagateGo fuel (fireEdge ctx i) (n :: rest ++ [outAt ctx i]) := by
  simp only [propagateGo]
  rw [if_pos ht, hf]

theorem go_step_none (fuel : Nat) (ctx : Ctx V E) (n : Nat)
    (rest : List Nat) (ht : terminal (stateOf ctx n) = true)
    (hf : findUnfired ctx.edges n = none) :
    propagateGo (fuel + 1) ctx (n :: rest) = propagateGo fuel ctx rest := by
  simp only [propagateGo]
  rw [if_pos ht, hf]

theorem go_step_skip (fuel : Nat) (ctx : Ctx V E) (n : Nat)
    (rest : List Nat) (ht : terminal (stateOf ctx n) = false) :
    propagateGo (fuel + 1) ctx (n :: rest) = propagateGo fuel ctx rest := by
  simp only [propagateGo]
  rw [if_neg (by simp [ht])]

theorem getD_append_self {α : Type} (l : List α) (x d : α) :
    (l ++ [x]).getD l.length d = x := by
  have := getD_append_add l [x] d 0
  simpa using this

theorem set_append_add {α : Type} (l l₂ : List α) (i : Nat) (x : α) :
    (l ++ l₂).set (l.length + i) x = l ++ l₂.set i x := by
  induction l with
  | nil => simp
  | cons c rest ih => simp [Nat.succ_add, ih]

theorem findUnfired_cons_unfired (e : Edge V E) (rest : List (Edge V E))
    (n : Nat) (hs : e.src = n) (hf : e.fired = false) :
    findUnfired (e :: rest) n = some 0 := by
  unfold findUnfired
  rw [if_pos ⟨hs, hf⟩]

theorem terminal_applyTransform (f : V → Except E V) (v : V) :
    terminal (applyTransform f v) = true := by
  unfold applyTransform
  cases f v <;> rfl

theorem registeredCtx_edges_length (ctx : Ctx V E) (n : Nat)
    (f : V → Except E V) :
    (registeredCtx ctx n f).edges.length = ctx.edges.length + 1 := by
  simp [registeredCtx]

theorem registeredCtx_stateOf (ctx : Ctx V E) (n : Nat)
    (f : V → Except E V) (m : Nat) :
    stateOf (registeredCtx ctx n f) m = stateOf ctx m :=
  getD_append_pending ctx.states m

/-- Applying to a still-pending input registers the edge and leaves
everything quiescent. -/
theorem apply_propagate_pending (ctx : Ctx V E) (n : Nat)
    (f : V → Except E V) (hp : stateOf ctx n = NodeState.pending) :
    (DVGraph.apply ctx n f).1 = registeredCtx ctx n f := by
  rw [apply_fst, propagate_eq_go, registeredCtx_edges_length]
  rw [show 2 * (ctx.edges.length + 1) + [n].length
    = (2 * ctx.edges.length + 2) + 1 from by simp; omega]
  rw [go_step_skip _ _ _ _ (by rw [registeredCtx_stateOf, hp]; rfl)]
  exact propagateGo_nil _ _


theorem go_two_none (fuel : Nat) (ctx : Ctx V E) (n m : Nat)
    (htn : terminal (stateOf ctx n) = true)
    (hfn : findUnfired ctx.edges n = none)
    (htm : terminal (stateOf ctx m) = true)
    (hfm : findUnfired ctx.edges m = none) :
    propagateGo (fuel + 2) ctx [n, m] = ctx := by
  rw [go_step_none (fuel + 1) ctx n [m] htn hfn,
    go_step_none fuel ctx m [] htm hfm]
  exact propagateGo_nil fuel ctx

/-- Applying to an already-resolved input dispatches the new edge during the
call: the transform runs (it is logged) and its result lands in the fresh
output slot. -/
theorem apply_propagate_resolved (ctx : Ctx V E) (hB : edgesBounded ctx)
    (hq : noPendingWork ctx) (n : Nat) (f : V → Except E V) (v : V)
    (hres : stateOf ctx n = NodeState.resolved v) :
    (DVGraph.apply ctx n f).1 =
      { states := setIfPending (ctx.states ++ [NodeState.pending])
          ctx.states.length (applyTransform f v),
        edges := ctx.edges ++ [{ src := n, out := ctx.states.length,
                                 transform := f, fired := true }],
        log := ctx.log ++ [ctx.edges.length] } := by
  have hn_lt : n < ctx.states.length :=
    lt_length_of_terminal ctx n (by rw [hres]; rfl)
  have ht : terminal (stateOf (registeredCtx ctx n f) n) = true := by
    rw [registeredCtx_stateOf, hres]
    rfl
  have hprefix : allFiredFor ctx.edges n := by
    intro e hm hsrc
    rcases Bool.eq_false_or_eq_true e.fired with hb | hb
    · exact hb
    · have := hq e hm hb
      rw [hsrc, hres] at this
      simp [terminal] at this
  have hfind : findUnfired (registeredCtx ctx n f).edges n
      = some ctx.edges.length := by
    show findUnfired (ctx.edges ++ [newEdge n ctx.states.length f]) n = _
    rw [findUnfired_append ctx.edges _ n hprefix,
      findUnfired_cons_unfired _ _ n rfl rfl]
    simp
  have hgk : (registeredCtx ctx n f).edges[ctx.edges.length]?
      = some (newEdge n ctx.states.length f) := by
    show (ctx.edges ++ [newEdge n ctx.states.length f])[ctx.edges.length]?
      = _
    rw [List.getElem?_append_right (Nat.le_refl _)]
    simp
  have houtAt : outAt (registeredCtx ctx n f) ctx.edges.length
      = ctx.states.length := by
    unfold outAt
    rw [hgk]
    rfl
  have hst : stateOf (registeredCtx ctx n f)
      (newEdge n ctx.states.length f).src = NodeState.resolved v := by
    show stateOf (registeredCtx ctx n f) n = NodeState.resolved v
    rw [registeredCtx_stateOf]
    exact hres
  have hset : (registeredCtx ctx n f).edges.set ctx.edges.length
      { newEdge n ctx.states.length f with fired := true }
      = ctx.edges ++ [{ src := n, out := ctx.states.length,
                        transform := f, fired := true }] := by
    show (ctx.edges ++ [newEdge n ctx.states.length f]).set
      ctx.edges.length ({ newEdge n ctx.states.length f with fired := true })
      = _
    have h0 := set_append_add ctx.edges [newEdge n ctx.states.length f] 0
      ({ newEdge n ctx.states.length f with fired := true })
    simp only [Nat.add_zero, List.set_cons_zero] at h0
    exact h0.trans (by rfl)
  have hfire : fireEdge (registeredCtx ctx n f) ctx.edges.length =
      { states := setIfPending (ctx.states ++ [NodeState.pending])
          ctx.states.length (applyTransform f v),
        edges := ctx.edges ++ [{ src := n, out := ctx.states.length,
                                 transform := f, fired := true }],
        log := ctx.log ++ [ctx.edges.length] } := by
    rw [fireEdge_of_resolved (registeredCtx ctx n f) ctx.edges.length
      (newEdge n ctx.states.length f) v hgk hst, hset]
    rfl
  rw [apply_fst, propagate_eq_go, registeredCtx_edges_length]
  rw [show 2 * (ctx.edges.length + 1) + [n].length
    = (2 * ctx.edges.length + 2) + 1 from by simp; omega]
  rw [go_step_fire (2 * ctx.edges.length + 2) (registeredCtx ctx n f) n []
    ctx.edges.length ht hfind, houtAt, hfire]
  refine go_two_none (2 * ctx.edges.length) _ n ctx.states.length ?_ ?_ ?_ ?_
  · have h1 : (setIfPending (ctx.states ++ [NodeState.pending])
        ctx.states.length (applyTransform f v)).getD n NodeState.pending
        = NodeState.resolved v := by
      rw [setIfPending_getD_ne _ _ _ _ (Nat.ne_of_lt hn_lt),
        getD_append_lt _ _ _ _ hn_lt]
      exact hres
    show terminal ((setIfPending (ctx.states ++ [NodeState.pending])
      ctx.states.length (applyTransform f v)).getD n NodeState.pending)
      = true
    rw [h1]
    rfl
  · apply findUnfired_eq_none
    intro e hm hsrc
    rcases List.mem_append.mp hm with hold | hnew
    · exact hprefix e hold hsrc
    · have he := List.mem_singleton.mp hnew
      rw [he]
  · have h2 : (setIfPending (ctx.states ++ [NodeState.pending])
        ctx.states.length (applyTransform f v)).getD ctx.states.length
        NodeState.pending = applyTransform f v := by
      rw [setIfPending_of_pending _ _ _
        (getD_append_self ctx.states NodeState.pending NodeState.pending)]
      rw [getD_set_self _ _ _ _ (by simp)]
    show terminal ((setIfPending (ctx.states ++ [NodeState.pending])
      ctx.states.length (applyTransform f v)).getD ctx.states.length
      NodeState.pending) = true
    rw [h2]
    exact terminal_applyTransform f v
  · apply findUnfired_eq_none
    intro e hm hsrc
    rcases List.mem_append.mp hm with hold | hnew
    · exact absurd (hsrc ▸ (hB e hold).1) (lt_irrefl _)
    · have he := List.mem_singleton.mp hnew
      rw [he] at hsrc
      simp at hsrc
      exact absurd hsrc (Nat.ne_of_lt hn_lt)


/-- Applying to an already-failed input short-circuits the fresh output to
`Failed` with the same error and never runs the transform (the log is
unchanged). -/
theorem apply_propagate_failed (ctx : Ctx V E) (hB : edgesBounded ctx)
    (hq : noPendingWork ctx) (n : Nat) (f : V → Except E V) (err : E)
    (hfailed : stateOf ctx n = NodeState.failed err) :
    (DVGraph.apply ctx n f).1 =
      { states := setIfPending (ctx.states ++ [NodeState.pending])
          ctx.states.length (NodeState.failed err),
        edges := ctx.edges ++ [{ src := n, out := ctx.states.length,
                                 transform := f, fired := true }],
        log := ctx.log } := by
  have hn_lt : n < ctx.states.length :=
    lt_length_of_terminal ctx n (by rw [hfailed]; rfl)
  have ht : terminal (stateOf (registeredCtx ctx n f) n) = true := by
    rw [registeredCtx_stateOf, hfailed]
    rfl
  have hprefix : allFiredFor ctx.edges n := by
    intro e hm hsrc
    rcases Bool.eq_false_or_eq_true e.fired with hb | hb
    · exact hb
    · have := hq e hm hb
      rw [hsrc, hfailed] at this
      simp [terminal] at this
  have hfind : findUnfired (registeredCtx ctx n f).edges n
      = some ctx.edges.length := by
    show findUnfired (ctx.edges ++ [newEdge n ctx.states.length f]) n = _
    rw [findUnfired_append ctx.edges _ n hprefix,
      findUnfired_cons_unfired _ _ n rfl rfl]
    simp
  have hgk : (registeredCtx ctx n f).edges[ctx.edges.length]?
      = some (newEdge n ctx.states.length f) := by
    show (ctx.edges ++ [newEdge n ctx.states.length f])[ctx.edges.length]?
      = _
    rw [List.getElem?_append_right (Nat.le_refl _)]
    simp
  have houtAt : outAt (registeredCtx ctx n f) ctx.edges.length
      = ctx.states.length := by
    unfold outAt
    rw [hgk]
    rfl
  have hst : stateOf (registeredCtx ctx n f)
      (newEdge n ctx.states.length f).src = NodeState.failed err := by
    show stateOf (registeredCtx ctx n f) n = NodeState.failed err
    rw [registeredCtx_stateOf]
    exact hfailed
  have hset : (registeredCtx ctx n f).edges.set ctx.edges.length
      { newEdge n ctx.states.length f with fired := true }
      = ctx.edges ++ [{ src := n, out := ctx.states.length,
                        transform := f, fired := true }] := by
    show (ctx.edges ++ [newEdge n ctx.states.length f]).set
      ctx.edges.length ({ newEdge n ctx.states.length f with fired := true })
      = _
    have h0 := set_append_add ctx.edges [newEdge n ctx.states.length f] 0
      ({ newEdge n ctx.states.length f with fired := true })
    simp only [Nat.add_zero, List.set_cons_zero] at h0
    exact h0.trans (by rfl)
  have hfire : fireEdge (registeredCtx ctx n f) ctx.edges.length =
      { states := setIfPending (ctx.states ++ [NodeState.pending])
          ctx.states.length (NodeState.failed err),
        edges := ctx.edges ++ [{ src := n, out := ctx.states.length,
                                 transform := f, fired := true }],
        log := ctx.log } := by
    rw [fireEdge_of_failed (registeredCtx ctx n f) ctx.edges.length
      (newEdge n ctx.states.length f) err hgk hst, hset]
    rfl
  rw [apply_fst, propagate_eq_go, registeredCtx_edges_length]
  rw [show 2 * (ctx.edges.length + 1) + [n].length
    = (2 * ctx.edges.length + 2) + 1 from by simp; omega]
  rw [go_step_fire (2 * ctx.edges.length + 2) (registeredCtx ctx n f) n []
    ctx.edges.length ht hfind, houtAt, hfire]
  refine go_two_none (2 * ctx.edges.length) _ n ctx.states.length ?_ ?_ ?_ ?_
  · have h1 : (setIfPending (ctx.states ++ [NodeState.pending])
        ctx.states.length (NodeState.failed err)).getD n NodeState.pending
        = NodeState.failed err := by
      rw [setIfPending_getD_ne _ _ _ _ (Nat.ne_of_lt hn_lt),
        getD_append_lt _ _ _ _ hn_lt]
      exact hfailed
    show terminal ((setIfPending (ctx.states ++ [NodeState.pending])
      ctx.states.length (NodeState.failed err)).getD n NodeState.pending)
      = true
    rw [h1]
    rfl
  · apply findUnfired_eq_none
    intro e hm hsrc
    rcases List.mem_append.mp hm with hold | hnew
    · exact hprefix e hold hsrc
    · have he := List.mem_singleton.mp hnew
      rw [he]
  · have h2 : (setIfPending (ctx.states ++ [NodeState.pending])
        ctx.states.length (NodeState.failed err)).getD ctx.states.length
        NodeState.pending = NodeState.failed err := by
      rw [setIfPending_of_pending _ _ _
        (getD_append_self ctx.states NodeState.pending NodeState.pending)]
      rw [getD_set_self _ _ _ _ (by simp)]
    show terminal ((setIfPending (ctx.states ++ [NodeState.pending])
      ctx.states.length (NodeState.failed err)).getD ctx.states.length
      NodeState.pending) = true
    rw [h2]
    rfl
  · apply findUnfired_eq_none
    intro e hm hsrc
    rcases List.mem_append.mp hm with hold | hnew
    · exact absurd (hsrc ▸ (hB e hold).1) (lt_irrefl _)
    · have he := List.mem_singleton.mp hnew
      rw [he] at hsrc
      simp at hsrc
      exact absurd hsrc (Nat.ne_of_lt hn_lt)


/-- Claim C5: `apply(node, transform)` returns a fresh output node without
blocking (the operation is a total function).  If `node` is already
`Resolved` the transform is dispatched during the call itself — the output
is terminal when `apply` returns, with the transform's result, and the
dispatch is logged.  If `node` is already `Failed` the output is
immediately `Failed` with the same error and the transform never runs.
Otherwise the output is still `Pending` when `apply` returns. -/
theorem apply_spec (ctx : Ctx V E) (hB : edgesBounded ctx)
    (hq : noPendingWork ctx) (n : Nat) (f : V → Except E V) :
    (DVGraph.apply ctx n f).2 = ctx.states.length ∧
    (∀ v, stateOf ctx n = NodeState.resolved v →
      stateOf (DVGraph.apply ctx n f).1 ctx.states.length
        = applyTransform f v ∧
      terminal (stateOf (DVGraph.apply ctx n f).1 ctx.states.length)
        = true ∧
      (DVGraph.apply ctx n f).1.log = ctx.log ++ [ctx.edges.length]) ∧
    (∀ err, stateOf ctx n = NodeState.failed err →
      stateOf (DVGraph.apply ctx n f).1 ctx.states.length
        = NodeState.failed err ∧
      (DVGraph.apply ctx n f).1.log = ctx.log) ∧
    (stateOf ctx n = NodeState.pending →
      stateOf (DVGraph.apply ctx n f).1 ctx.states.length
        = NodeState.pending ∧
      (DVGraph.apply ctx n f).1.log = ctx.log) := by
  refine ⟨apply_snd ctx n f, ?_, ?_, ?_⟩
  · intro v hv
    rw [apply_propagate_resolved ctx hB hq n f v hv]
    have h2 : (setIfPending (ctx.states ++ [NodeState.pending])
        ctx.states.length (applyTransform f v)).getD ctx.states.length
        NodeState.pending = applyTransform f v := by
      rw [setIfPending_of_pending _ _ _
        (getD_append_self ctx.states NodeState.pending NodeState.pending)]
      rw [getD_set_self _ _ _ _ (by simp)]
    refine ⟨h2, ?_, rfl⟩
    show terminal ((setIfPending (ctx.states ++ [NodeState.pending])
      ctx.states.length (applyTransform f v)).getD ctx.states.length
      NodeState.pending) = true
    rw [h2]
    exact terminal_applyTransform f v
  · intro err herr
    rw [apply_propagate_failed ctx hB hq n f err herr]
    have h2 : (setIfPending (ctx.states ++ [NodeState.pending])
        ctx.states.length (NodeState.failed err)).getD ctx.states.length
        NodeState.pending = NodeState.failed err := by
      rw [setIfPending_of_pending _ _ _
        (getD_append_self ctx.states NodeState.pending NodeState.pending)]
      rw [getD_set_self _ _ _ _ (by simp)]
    exact ⟨h2, rfl⟩
  · intro hp
    rw [apply_propagate_pending ctx n f hp]
    exact ⟨getD_append_self ctx.states NodeState.pending NodeState.pending,
      rfl⟩


/-- Witness for C5 on a context with one resolved node. -/
theorem apply_spec_witness :
    (DVGraph.apply c5Ctx 0 (fun v => Except.ok (v + 1))).2
      = c5Ctx.states.length ∧
    (∀ v, stateOf c5Ctx 0 = NodeState.resolved v →
      stateOf (DVGraph.apply c5Ctx 0 (fun v => Except.ok (v + 1))).1
          c5Ctx.states.length
        = applyTransform (fun v => Except.ok (v + 1)) v ∧
      terminal (stateOf (DVGraph.apply c5Ctx 0
          (fun v => Except.ok (v + 1))).1 c5Ctx.states.length) = true ∧
      (DVGraph.apply c5Ctx 0 (fun v => Except.ok (v + 1))).1.log
        = c5Ctx.log ++ [c5Ctx.edges.length]) ∧
    (∀ err, stateOf c5Ctx 0 = NodeState.failed err →
      stateOf (DVGraph.apply c5Ctx 0 (fun v => Except.ok (v + 1))).1
          c5Ctx.states.length
        = NodeState.failed err ∧
      (DVGraph.apply c5Ctx 0 (fun v => Except.ok (v + 1))).1.log
        = c5Ctx.log) ∧
    (stateOf c5Ctx 0 = NodeState.pending →
      stateOf (DVGraph.apply c5Ctx 0 (fun v => Except.ok (v + 1))).1
          c5Ctx.states.length
        = NodeState.pending ∧
      (DVGraph.apply c5Ctx 0 (fun v => Except.ok (v + 1))).1.log
        = c5Ctx.log) :=
  apply_spec c5Ctx
    (by intro e hm; simp [c5Ctx] at hm)
    (by intro e hm; simp [c5Ctx] at hm)
    0 (fun v => Except.ok (v + 1))


theorem fail_of_pending (ctx : Ctx V E) (n : Nat) (err : E)
    (h : stateOf ctx n = NodeState.pending) :
    fail ctx n err = Except.ok (propagate
      { ctx with states := ctx.states.set n (NodeState.failed err) }
      [n]) := by
  unfold fail
  rw [h]

theorem outAt_eq (ctx : Ctx V E) (i : Nat) (e : Edge V E)
    (hg : ctx.edges[i]? = some e) : outAt ctx i = e.out := by
  unfold outAt
  rw [hg]

/-- Failing the head of a freshly built two-edge chain drives both
downstream nodes to `Failed` with the same error, and the dispatch log does
not grow: no transform is invoked. -/
theorem chain_fail_trace (S : List (NodeState V E)) (Eg : List (Edge V E))
    (Lg : List Nat)
    (hB : ∀ e ∈ Eg, e.src < S.length ∧ e.out < S.length)
    (f g : V → Except E V) (err : E) :
    propagate
      { states := (S ++ [NodeState.pending, NodeState.pending,
          NodeState.pending]).set S.length (NodeState.failed err),
        edges := Eg ++ [newEdge S.length (S.length + 1) f,
          newEdge (S.length + 1) (S.length + 2) g],
        log := Lg } [S.length]
    = { states := (((S ++ [NodeState.pending, NodeState.pending,
          NodeState.pending]).set S.length (NodeState.failed err)).set
          (S.length + 1) (NodeState.failed err)).set (S.length + 2)
          (NodeState.failed err),
        edges := (Eg ++ [{ newEdge S.length (S.length + 1) f with fired := true }])
          ++ [{ newEdge (S.length + 1) (S.length + 2) g with fired := true }],
        log := Lg } := by
  generalize hE1 : newEdge S.length (S.length + 1) f = e1
  generalize hE2 : newEdge (S.length + 1) (S.length + 2) g = e2
  have h1src : e1.src = S.length := by rw [← hE1]; rfl
  have h1out : e1.out = S.length + 1 := by rw [← hE1]; rfl
  have h1fired : e1.fired = false := by rw [← hE1]; rfl
  have h2src : e2.src = S.length + 1 := by rw [← hE2]; rfl
  have h2out : e2.out = S.length + 2 := by rw [← hE2]; rfl
  have h2fired : e2.fired = false := by rw [← hE2]; rfl
  have hlen3 : (S ++ [NodeState.pending, NodeState.pending,
      NodeState.pending]).length = S.length + 3 := by simp
  have g1 : (S ++ [NodeState.pending, NodeState.pending,
      NodeState.pending]).getD (S.length + 1) NodeState.pending
      = NodeState.pending := by
    have := getD_append_add S [NodeState.pending, NodeState.pending,
      NodeState.pending] NodeState.pending 1
    simpa using this
  have g2 : (S ++ [NodeState.pending, NodeState.pending,
      NodeState.pending]).getD (S.length + 2) NodeState.pending
      = NodeState.pending := by
    have := getD_append_add S [NodeState.pending, NodeState.pending,
      NodeState.pending] NodeState.pending 2
    simpa using this
  have hA0 : ((S ++ [NodeState.pending, NodeState.pending,
      NodeState.pending]).set S.length (NodeState.failed err)).getD S.length
      NodeState.pending = NodeState.failed err :=
    getD_set_self _ _ _ _ (by rw [hlen3]; omega)
  have hB0 : ((S ++ [NodeState.pending, NodeState.pending,
      NodeState.pending]).set S.length (NodeState.failed err)).getD
      (S.length + 1) NodeState.pending = NodeState.pending := by
    rw [getD_set_ne _ _ _ _ _ (by omega)]
    exact g1
  have hC0 : ((S ++ [NodeState.pending, NodeState.pending,
      NodeState.pending]).set S.length (NodeState.failed err)).getD
      (S.length + 2) NodeState.pending = NodeState.pending := by
    rw [getD_set_ne _ _ _ _ _ (by omega)]
    exact g2
  have hprefixA : allFiredFor Eg S.length := by
    intro e hm hsrc
    exact absurd (hsrc ▸ (hB e hm).1) (lt_irrefl _)
  have hfind1 : findUnfired (Eg ++ [e1, e2]) S.length = some Eg.length := by
    rw [findUnfired_append Eg _ _ hprefixA,
      findUnfired_cons_unfired e1 [e2] S.length h1src h1fired]
    simp
  have hg1 : (Eg ++ [e1, e2])[Eg.length]? = some e1 := by
    rw [List.getElem?_append_right (Nat.le_refl _)]
    simp
  have ht1 : terminal (stateOf
      { states := (S ++ [NodeState.pending, NodeState.pending,
          NodeState.pending]).set S.length (NodeState.failed err),
        edges := Eg ++ [e1, e2], log := Lg } S.length) = true := by
    show terminal (((S ++ [NodeState.pending, NodeState.pending,
      NodeState.pending]).set S.length (NodeState.failed err)).getD S.length
      NodeState.pending) = true
    rw [hA0]
    rfl
  have hstE1 : stateOf
      { states := (S ++ [NodeState.pending, NodeState.pending,
          NodeState.pending]).set S.length (NodeState.failed err),
        edges := Eg ++ [e1, e2], log := Lg } e1.src
      = NodeState.failed err := by
    rw [h1src]
    show ((S ++ [NodeState.pending, NodeState.pending,
      NodeState.pending]).set S.length (NodeState.failed err)).getD S.length
      NodeState.pending = NodeState.failed err
    exact hA0
  have hset1 : (Eg ++ [e1, e2]).set Eg.length { e1 with fired := true }
      = Eg ++ [{ e1 with fired := true }, e2] := by
    have h0 := set_append_add Eg [e1, e2] 0 ({ e1 with fired := true })
    simpa using h0
  have hsp1 : setIfPending ((S ++ [NodeState.pending, NodeState.pending,
      NodeState.pending]).set S.length (NodeState.failed err)) e1.out
      (NodeState.failed err)
      = ((S ++ [NodeState.pending, NodeState.pending,
          NodeState.pending]).set S.length (NodeState.failed err)).set
          (S.length + 1) (NodeState.failed err) := by
    rw [h1out]
    exact setIfPending_of_pending _ _ _ hB0
  have hfire1 : fireEdge
      { states := (S ++ [NodeState.pending, NodeState.pending,
          NodeState.pending]).set S.length (NodeState.failed err),
        edges := Eg ++ [e1, e2], log := Lg } Eg.length
      = { states := ((S ++ [NodeState.pending, NodeState.pending,
            NodeState.pending]).set S.length (NodeState.failed err)).set
            (S.length + 1) (NodeState.failed err),
          edges := Eg ++ [{ e1 with fired := true }, e2], log := Lg } := by
    rw [fireEdge_of_failed _ Eg.length e1 err hg1 hstE1]
    dsimp only
    rw [hsp1, hset1]
  have hout1 : outAt
      { states := (S ++ [NodeState.pending, NodeState.pending,
          NodeState.pending]).set S.length (NodeState.failed err),
        edges := Eg ++ [e1, e2], log := Lg } Eg.length = S.length + 1 := by
    rw [outAt_eq _ Eg.length e1 hg1, h1out]
  rw [propagate_eq_go]
  rw [show ({ states := (S ++ [NodeState.pending, NodeState.pending,
                NodeState.pending]).set S.length (NodeState.failed err),
              edges := Eg ++ [e1, e2], log := Lg } : Ctx V E).edges.length
    = Eg.length + 2 from by simp]
  rw [show 2 * (Eg.length + 2) + [S.length].length
    = (2 * Eg.length + 4) + 1 from by simp; omega]
  rw [go_step_fire (2 * Eg.length + 4) _ _ _ Eg.length ht1 hfind1, hout1,
    hfire1, List.singleton_append]
  rw [show 2 * Eg.length + 4 = (2 * Eg.length + 3) + 1 from rfl]
  have ht2 : terminal (stateOf
      { states := ((S ++ [NodeState.pending, NodeState.pending,
          NodeState.pending]).set S.length (NodeState.failed err)).set
          (S.length + 1) (NodeState.failed err),
        edges := Eg ++ [{ e1 with fired := true }, e2], log := Lg }
      S.length) = true := by
    show terminal ((((S ++ [NodeState.pending, NodeState.pending,
      NodeState.pending]).set S.length (NodeState.failed err)).set
      (S.length + 1) (NodeState.failed err)).getD S.length
      NodeState.pending) = true
    rw [getD_set_ne _ _ _ _ _ (by omega), hA0]
    rfl
  have hfind2 : findUnfired (Eg ++ [{ e1 with fired := true }, e2]) S.length
      = none := by
    apply findUnfired_eq_none
    intro e hm hsrc
    rcases List.mem_append.mp hm with hold | hnew
    · exact hprefixA e hold hsrc
    · rcases List.mem_cons.mp hnew with he | he2m
      · rw [he]
      · have he2e : e = e2 := List.mem_singleton.mp he2m
        rw [he2e] at hsrc
        rw [h2src] at hsrc
        exact absurd hsrc (by omega)
  rw [go_step_none (2 * Eg.length + 3) _ S.length _ ht2 hfind2]
  rw [show 2 * Eg.length + 3 = (2 * Eg.length + 2) + 1 from rfl]
  have hsplit : Eg ++ [{ e1 with fired := true }, e2]
      = (Eg ++ [{ e1 with fired := true }]) ++ [e2] :=
    (List.append_assoc Eg [{ e1 with fired := true }] [e2]).symm
  have hprefixB2 : allFiredFor (Eg ++ [{ e1 with fired := true }])
      (S.length + 1) := by
    intro e hm hsrc
    rcases List.mem_append.mp hm with hold | hnew
    · have := (hB e hold).1
      rw [hsrc] at this
      exact absurd this (by omega)
    · rw [List.mem_singleton.mp hnew]
  have hfind3 : findUnfired (Eg ++ [{ e1 with fired := true }, e2])
      (S.length + 1) = some (Eg.length + 1) := by
    rw [hsplit, findUnfired_append _ _ _ hprefixB2,
      findUnfired_cons_unfired e2 [] _ h2src h2fired]
    simp
  have hg2 : (Eg ++ [{ e1 with fired := true }, e2])[Eg.length + 1]?
      = some e2 := by
    rw [hsplit, List.getElem?_append_right (by simp)]
    simp
  have ht3 : terminal (stateOf
      { states := ((S ++ [NodeState.pending, NodeState.pending,
          NodeState.pending]).set S.length (NodeState.failed err)).set
          (S.length + 1) (NodeState.failed err),
        edges := Eg ++ [{ e1 with fired := true }, e2], log := Lg }
      (S.length + 1)) = true := by
    show terminal ((((S ++ [NodeState.pending, NodeState.pending,
      NodeState.pending]).set S.length (NodeState.failed err)).set
      (S.length + 1) (NodeState.failed err)).getD (S.length + 1)
      NodeState.pending) = true
    rw [getD_set_self _ _ _ _ (by rw [List.length_set, hlen3]; omega)]
    rfl
  have hstE2 : stateOf
      { states := ((S ++ [NodeState.pending, NodeState.pending,
          NodeState.pending]).set S.length (NodeState.failed err)).set
          (S.length + 1) (NodeState.failed err),
        edges := Eg ++ [{ e1 with fired := true }, e2], log := Lg } e2.src
      = NodeState.failed err := by
    rw [h2src]
    show (((S ++ [NodeState.pending, NodeState.pending,
      NodeState.pending]).set S.length (NodeState.failed err)).set
      (S.length + 1) (NodeState.failed err)).getD (S.length + 1)
      NodeState.pending = NodeState.failed err
    exact getD_set_self _ _ _ _ (by rw [List.length_set, hlen3]; omega)
  have hset2 : (Eg ++ [{ e1 with fired := true }, e2]).set (Eg.length + 1)
      { e2 with fired := true }
      = (Eg ++ [{ e1 with fired := true }]) ++ [{ e2 with fired := true }]
      := by
    rw [hsplit]
    have h0 := set_append_add (Eg ++ [{ e1 with fired := true }]) [e2] 0
      ({ e2 with fired := true })
    simp only [List.length_append, List.length_singleton, Nat.add_zero,
      List.set_cons_zero] at h0
    exact h0
  have hsp2 : setIfPending (((S ++ [NodeState.pending, NodeState.pending,
      NodeState.pending]).set S.length (NodeState.failed err)).set
      (S.length + 1) (NodeState.failed err)) e2.out (NodeState.failed err)
      = (((S ++ [NodeState.pending, NodeState.pending,
          NodeState.pending]).set S.length (NodeState.failed err)).set
          (S.length + 1) (NodeState.failed err)).set (S.length + 2)
          (NodeState.failed err) := by
    rw [h2out]
    refine setIfPending_of_pending _ _ _ ?_
    rw [getD_set_ne _ _ _ _ _ (by omega)]
    exact hC0
  have hfire3 : fireEdge
      { states := ((S ++ [NodeState.pending, NodeState.pending,
          NodeState.pending]).set S.length (NodeState.failed err)).set
          (S.length + 1) (NodeState.failed err),
        edges := Eg ++ [{ e1 with fired := true }, e2], log := Lg }
      (Eg.length + 1)
      = { states := (((S ++ [NodeState.pending, NodeState.pending,
            NodeState.pending]).set S.length (NodeState.failed err)).set
            (S.length + 1) (NodeState.failed err)).set (S.length + 2)
            (NodeState.failed err),
          edges := (Eg ++ [{ e1 with fired := true }])
            ++ [{ e2 with fired := true }],
          log := Lg } := by
    rw [fireEdge_of_failed _ (Eg.length + 1) e2 err hg2 hstE2]
    dsimp only
    rw [hsp2, hset2]
  have hout3 : outAt
      { states := ((S ++ [NodeState.pending, NodeState.pending,
          NodeState.pending]).set S.length (NodeState.failed err)).set
          (S.length + 1) (NodeState.failed err),
        edges := Eg ++ [{ e1 with fired := true }, e2], log := Lg }
      (Eg.length + 1) = S.length + 2 := by
    rw [outAt_eq _ (Eg.length + 1) e2 hg2, h2out]
  rw [go_step_fire (2 * Eg.length + 2) _ _ _ (Eg.length + 1) ht3 hfind3,
    hout3, hfire3, List.singleton_append]
  refine go_two_none (2 * Eg.length) _ (S.length + 1) (S.length + 2)
    ?_ ?_ ?_ ?_
  · show terminal (((((S ++ [NodeState.pending, NodeState.pending,
      NodeState.pending]).set S.length (NodeState.failed err)).set
      (S.length + 1) (NodeState.failed err)).set (S.length + 2)
      (NodeState.failed err)).getD (S.length + 1) NodeState.pending) = true
    rw [getD_set_ne _ _ _ _ _ (by omega),
      getD_set_self _ _ _ _ (by rw [List.length_set, hlen3]; omega)]
    rfl
  · apply findUnfired_eq_none
    intro e hm hsrc
    rcases List.mem_append.mp hm with hmm | hnew2
    · rcases List.mem_append.mp hmm with hold | hnew1
      · have := (hB e hold).1
        rw [hsrc] at this
        exact absurd this (by omega)
      · rw [List.mem_singleton.mp hnew1]
    · rw [List.mem_singleton.mp hnew2]
  · show terminal (((((S ++ [NodeState.pending, NodeState.pending,
      NodeState.pending]).set S.length (NodeState.failed err)).set
      (S.length + 1) (NodeState.failed err)).set (S.length + 2)
      (NodeState.failed err)).getD (S.length + 2) NodeState.pending) = true
    rw [getD_set_self _ _ _ _ (by
      rw [List.length_set, List.length_set, hlen3]; omega)]
    rfl
  · apply findUnfired_eq_none
    intro e hm hsrc
    rcases List.mem_append.mp hm with hmm | hnew2
    · rcases List.mem_append.mp hmm with hold | hnew1
      · have := (hB e hold).1
        rw [hsrc] at this
        exact absurd this (by omega)
      · rw [List.mem_singleton.mp hnew1]
    · rw [List.mem_singleton.mp hnew2]


/-- Claim C1: for a dependency chain A→B→C built with `apply`, calling
`fail(A, err)` while A is still `Pending` drives both B and C to `Failed`
with A's error, and neither registered transform is ever invoked — the
dispatch log is exactly what it was before the chain was built. -/
theorem fail_propagates_chain (ctx : Ctx V E) (hB : edgesBounded ctx)
    (f g : V → Except E V) (err : E)
    (ctxA : Ctx V E) (A : Nat) (h1 : create_pending ctx = (ctxA, A))
    (ctxB : Ctx V E) (Bn : Nat) (h2 : DVGraph.apply ctxA A f = (ctxB, Bn))
    (ctxC : Ctx V E) (Cn : Nat) (h3 : DVGraph.apply ctxB Bn g = (ctxC, Cn)) :
    ∃ ctx', fail ctxC A err = Except.ok ctx' ∧
      stateOf ctx' Bn = NodeState.failed err ∧
      stateOf ctx' Cn = NodeState.failed err ∧
      ctx'.log = ctx.log := by
  obtain rfl : A = ctx.states.length := (congrArg Prod.snd h1).symm
  obtain rfl : ctxA = { ctx with states := ctx.states ++ [NodeState.pending] }
    := (congrArg Prod.fst h1).symm
  have hpA : stateOf { ctx with states := ctx.states ++ [NodeState.pending] }
      ctx.states.length = NodeState.pending :=
    getD_append_self ctx.states NodeState.pending NodeState.pending
  have happA := apply_propagate_pending
    { ctx with states := ctx.states ++ [NodeState.pending] }
    ctx.states.length f hpA
  obtain rfl : Bn = (ctx.states ++ [NodeState.pending]).length :=
    (congrArg Prod.snd h2).symm
  obtain rfl : ctxB = registeredCtx
      { ctx with states := ctx.states ++ [NodeState.pending] }
      ctx.states.length f :=
    (congrArg Prod.fst h2).symm.trans happA
  have hpB : stateOf (registeredCtx
      { ctx with states := ctx.states ++ [NodeState.pending] }
      ctx.states.length f) (ctx.states ++ [NodeState.pending]).length
      = NodeState.pending :=
    getD_append_self (ctx.states ++ [NodeState.pending]) NodeState.pending
      NodeState.pending
  have happB := apply_propagate_pending (registeredCtx
    { ctx with states := ctx.states ++ [NodeState.pending] }
    ctx.states.length f) (ctx.states ++ [NodeState.pending]).length g hpB
  obtain rfl : Cn
      = ((ctx.states ++ [NodeState.pending]) ++ [NodeState.pending]).length
    := (congrArg Prod.snd h3).symm
  obtain rfl : ctxC = registeredCtx (registeredCtx
      { ctx with states := ctx.states ++ [NodeState.pending] }
      ctx.states.length f) (ctx.states ++ [NodeState.pending]).length g :=
    (congrArg Prod.fst h3).symm.trans happB
  have hL1 : (ctx.states ++ [NodeState.pending]).length
      = ctx.states.length + 1 := by simp
  have hL2 : ((ctx.states ++ [NodeState.pending])
      ++ [NodeState.pending]).length = ctx.states.length + 2 := by simp
  rw [hL1, hL2]
  have hCC : registeredCtx (registeredCtx
      { ctx with states := ctx.states ++ [NodeState.pending] }
      ctx.states.length f) (ctx.states.length + 1) g
      = { states := ctx.states ++ [NodeState.pending, NodeState.pending,
            NodeState.pending],
          edges := ctx.edges ++ [newEdge ctx.states.length
            (ctx.states.length + 1) f, newEdge (ctx.states.length + 1)
            (ctx.states.length + 2) g],
          log := ctx.log } := by
    simp [registeredCtx, newEdge]
  rw [hCC]
  have hpCC : stateOf
      { states := ctx.states ++ [NodeState.pending, NodeState.pending,
          NodeState.pending],
        edges := ctx.edges ++ [newEdge ctx.states.length
          (ctx.states.length + 1) f, newEdge (ctx.states.length + 1)
          (ctx.states.length + 2) g],
        log := ctx.log } ctx.states.length = NodeState.pending := by
    show (ctx.states ++ [NodeState.pending, NodeState.pending,
      NodeState.pending]).getD ctx.states.length NodeState.pending
      = NodeState.pending
    have := getD_append_add ctx.states [NodeState.pending, NodeState.pending,
      NodeState.pending] NodeState.pending 0
    simpa using this
  have htr := chain_fail_trace ctx.states ctx.edges ctx.log hB f g err
  refine ⟨_, fail_of_pending _ ctx.states.length err hpCC, ?_, ?_, ?_⟩
  · show stateOf (propagate
      { states := (ctx.states ++ [NodeState.pending, NodeState.pending,
          NodeState.pending]).set ctx.states.length (NodeState.failed err),
        edges := ctx.edges ++ [newEdge ctx.states.length
          (ctx.states.length + 1) f, newEdge (ctx.states.length + 1)
          (ctx.states.length + 2) g],
        log := ctx.log } [ctx.states.length]) (ctx.states.length + 1)
      = NodeState.failed err
    rw [htr]
    show ((((ctx.states ++ [NodeState.pending, NodeState.pending,
      NodeState.pending]).set ctx.states.length (NodeState.failed err)).set
      (ctx.states.length + 1) (NodeState.failed err)).set
      (ctx.states.length + 2) (NodeState.failed err)).getD
      (ctx.states.length + 1) NodeState.pending = NodeState.failed err
    rw [getD_set_ne _ _ _ _ _ (by omega),
      getD_set_self _ _ _ _ (by simp)]
  · show stateOf (propagate
      { states := (ctx.states ++ [NodeState.pending, NodeState.pending,
          NodeState.pending]).set ctx.states.length (NodeState.failed err),
        edges := ctx.edges ++ [newEdge ctx.states.length
          (ctx.states.length + 1) f, newEdge (ctx.states.length + 1)
          (ctx.states.length + 2) g],
        log := ctx.log } [ctx.states.length]) (ctx.states.length + 2)
      = NodeState.failed err
    rw [htr]
    show ((((ctx.states ++ [NodeState.pending, NodeState.pending,
      NodeState.pending]).set ctx.states.length (NodeState.failed err)).set
      (ctx.states.length + 1) (NodeState.failed err)).set
      (ctx.states.length + 2) (NodeState.failed err)).getD
      (ctx.states.length + 2) NodeState.pending = NodeState.failed err
    rw [getD_set_self _ _ _ _ (by simp)]
  · show (propagate
      { states := (ctx.states ++ [NodeState.pending, NodeState.pending,
          NodeState.pending]).set ctx.states.length (NodeState.failed err),
        edges := ctx.edges ++ [newEdge ctx.states.length
          (ctx.states.length + 1) f, newEdge (ctx.states.length + 1)
          (ctx.states.length + 2) g],
        log := ctx.log } [ctx.states.length]).log = ctx.log
    rw [htr]


/-- Witness for C1 on the concrete chain built over the empty context. -/
theorem fail_propagates_chain_witness :
    ∃ ctx' : Ctx Nat Nat,
      fail c1c.1 c1a.2 7 = Except.ok ctx' ∧
      stateOf ctx' c1b.2 = NodeState.failed 7 ∧
      stateOf ctx' c1c.2 = NodeState.failed 7 ∧
      ctx'.log = (Ctx.empty Nat Nat).log :=
  fail_propagates_chain (Ctx.empty Nat Nat)
    (by intro e hm; simp [Ctx.empty] at hm)
    (fun v => Except.ok (v + 1)) (fun v => Except.ok (v * 2)) 7
    c1a.1 c1a.2 rfl c1b.1 c1b.2 rfl c1c.1 c1c.2 rfl


end DVGraph
